import Mathlib

set_option maxRecDepth 100000

/-!
# Verification of the poker CFR training substrate

This development embeds the core of the repository (the hand canonicalizers
from `texas_utils.py` and the betting/regret machinery from
`trainer_utils.py`) as executable Lean definitions and settles the spec
claims against them.

Cards are 2-character Python strings (rank char then suit char); Python
compares and sorts them lexicographically by character code, which we model
as pairs of `Char` with the lexicographic order.
-/

/-- A card `"As"`, `"2c"`, … is a rank character paired with a suit
character, exactly the 2-character Python string. -/
abbrev Card := Char × Char

/-- Python string comparison on 2-character card strings: first by rank
character, then by suit character (character code order). -/
def cardLE (a b : Card) : Prop :=
  a.1 < b.1 ∨ (a.1 = b.1 ∧ a.2 ≤ b.2)

instance : DecidableRel cardLE := fun a b => by
  unfold cardLE; infer_instance

/-- Python `sorted` on a list of card strings. The order is total and
antisymmetric on cards, so any sorting algorithm produces the same output;
we use insertion sort. -/
def sortCards (l : List Card) : List Card :=
  List.insertionSort cardLE l

/-- `suits = ['s', 'h', 'd', 'c']`, the pool canonical suit labels are
drawn from (in `archetypal_hand` and `make_isomorphic_suits`). -/
def suitPool : List Char := ['s', 'h', 'd', 'c']

/-- The four suit characters `SUITS = ('c', 'd', 'h', 's')`. -/
def suitChars : List Char := ['c', 'd', 'h', 's']

/-- Association-list lookup, modelling a Python `dict` read `m[k]`
(`none` = `KeyError`). -/
def alookup {α β : Type} [DecidableEq α] : List (α × β) → α → Option β
  | [], _ => none
  | (k, v) :: rest, a => if k = a then some v else alookup rest a

/-- The suit-substitution loop of `archetypal_hand`: scan the cards in
order; a suit already in `suit_mapping` reuses its label, a new suit pops
the next label off the pool.  An empty pool models Python's
`suits.pop(0)` raising `IndexError` (unreachable for 4-suit inputs). -/
def assignSuits : List Card → List (Char × Char) → List Char → Option (List Card)
  | [], _, _ => some []
  | card :: rest, mapping, pool =>
    match alookup mapping card.2 with
    | some m => (assignSuits rest mapping pool).map (fun l => (card.1, m) :: l)
    | none =>
      match pool with
      | [] => none
      | m :: ps => (assignSuits rest (mapping ++ [(card.2, m)]) ps).map (fun l => (card.1, m) :: l)

/-- `archetypal_hand` from `texas_utils.py`: sort the first 2 cards and the
rest separately, substitute suits by first-appearance order over the
concatenation, then re-sort the two segments. -/
def archetypal_hand (hand : List Card) : Option (List Card) :=
  let h1 := sortCards (hand.take 2) ++ sortCards (hand.drop 2)
  (assignSuits h1 [] suitPool).map fun h2 =>
    sortCards (h2.take 2) ++ sortCards (h2.drop 2)

/-- The `mapping` dict built inside `make_isomorphic_suits` for one suit
tuple: first-occurrence order over the tuple, labels popped from the pool
(an exhausted pool—impossible for 4-suit tuples—assigns nothing). -/
def buildMapping : List Char → List (Char × Char) → List Char → List (Char × Char)
  | [], m, _ => m
  | s :: rest, m, pool =>
    if (alookup m s).isSome then buildMapping rest m pool
    else
      match pool with
      | [] => buildMapping rest m pool
      | p :: ps => buildMapping rest (m ++ [(s, p)]) ps

/-- `[mapping[s] for s in non_iso]` for one suit tuple (the `getD` default
is unreachable: every suit of the tuple is a key of the mapping). -/
def isoAssign (t : List Char) : List Char :=
  let m := buildMapping t [] suitPool
  t.map (fun s => (alookup m s).getD s)

/-- `product(suits, suits, suits, suits, suits)`: all suit 5-tuples. -/
def prod5 (l : List Char) : List (List Char) :=
  l.flatMap fun a => l.flatMap fun b => l.flatMap fun c =>
    l.flatMap fun d => l.map fun e => [a, b, c, d, e]

/-- `make_isomorphic_suits()` from `texas_utils.py`: the precomputed table
mapping each suit 5-tuple to its canonical suit assignment. -/
def make_isomorphic_suits : List (List Char × List Char) :=
  (prod5 suitChars).map fun t => (t, isoAssign t)

/-- The module-level cached table `isomorphic_suits`. -/
def isomorphic_suits : List (List Char × List Char) := make_isomorphic_suits

/-- `isomorphic_hand` from `texas_utils.py` (the flat policy): sort the
whole hand, look the sorted suit tuple up in the precomputed table
(`none` = `KeyError` on a miss), substitute, re-sort. -/
def isomorphic_hand (hand : List Card) : Option (List Card) :=
  let sorted := sortCards hand
  let suits := sorted.map Prod.snd
  match alookup isomorphic_suits suits with
  | none => none
  | some iso =>
    some (sortCards (List.zipWith (fun (c : Card) (s : Char) => (c.1, s)) sorted iso))

/-- Apply a suit relabeling cardwise to a hand. -/
def applySuitPerm (f : Char → Char) (hand : List Card) : List Card :=
  hand.map fun c => (c.1, f c.2)

/-- The suit transposition swapping clubs and diamonds. -/
def swapCD (s : Char) : Char :=
  if s = 'c' then 'd' else if s = 'd' then 'c' else s

/-! ## Claims C1 and C7: the canonicalizers are neither suit-permutation
invariant nor idempotent.

Both failures stem from the same slip: the hands are sorted lexicographically
*before* suits are relabeled, and the sort breaks rank ties by the concrete
suit character, so relabeling the suits can reorder equal-rank cards and
change which card first introduces each suit. -/

/-- C1: canonicalization is NOT suit-permutation invariant.  For the hand
`('2c','2d','3d','4d','5d')` and the suit transposition c↔d (one of the 24
suit permutations, as the first two conjuncts witness), both `isomorphic_hand`
and `archetypal_hand` give different outputs on the permuted hand, refuting
`canonicalize(π(H)) == canonicalize(H)`. -/
theorem c1_canonicalize_not_suit_permutation_invariant :
    (∀ s ∈ suitChars, swapCD s ∈ suitChars) ∧
    (∀ s ∈ suitChars, swapCD (swapCD s) = s) ∧
    applySuitPerm swapCD [('2','c'), ('2','d'), ('3','d'), ('4','d'), ('5','d')]
      = [('2','d'), ('2','c'), ('3','c'), ('4','c'), ('5','c')] ∧
    isomorphic_hand [('2','c'), ('2','d'), ('3','d'), ('4','d'), ('5','d')]
      = some [('2','h'), ('2','s'), ('3','h'), ('4','h'), ('5','h')] ∧
    isomorphic_hand [('2','d'), ('2','c'), ('3','c'), ('4','c'), ('5','c')]
      = some [('2','h'), ('2','s'), ('3','s'), ('4','s'), ('5','s')] ∧
    archetypal_hand [('2','c'), ('2','d'), ('3','d'), ('4','d'), ('5','d')]
      = some [('2','h'), ('2','s'), ('3','h'), ('4','h'), ('5','h')] ∧
    archetypal_hand [('2','d'), ('2','c'), ('3','c'), ('4','c'), ('5','c')]
      = some [('2','h'), ('2','s'), ('3','s'), ('4','s'), ('5','s')] := by
  exact ⟨by decide, by decide, by decide, by decide, by decide, by decide, by decide⟩

/-- C7: canonicalization is NOT idempotent.  For the hand
`('Ac','Ad','Kd','Qd','Jd')`, re-canonicalizing the canonical output changes
it again (in fact the two values oscillate), for both the flat and the split
policy, refuting `canonicalize(canonicalize(H)) == canonicalize(H)`. -/
theorem c7_canonicalize_not_idempotent :
    isomorphic_hand [('A','c'), ('A','d'), ('K','d'), ('Q','d'), ('J','d')]
      = some [('A','h'), ('A','s'), ('J','h'), ('K','h'), ('Q','h')] ∧
    isomorphic_hand [('A','h'), ('A','s'), ('J','h'), ('K','h'), ('Q','h')]
      = some [('A','h'), ('A','s'), ('J','s'), ('K','s'), ('Q','s')] ∧
    some [('A','h'), ('A','s'), ('J','s'), ('K','s'), ('Q','s')]
      ≠ some [('A','h'), ('A','s'), ('J','h'), ('K','h'), ('Q','h')] ∧
    archetypal_hand [('A','c'), ('A','d'), ('K','d'), ('Q','d'), ('J','d')]
      = some [('A','h'), ('A','s'), ('J','h'), ('K','h'), ('Q','h')] ∧
    archetypal_hand [('A','h'), ('A','s'), ('J','h'), ('K','h'), ('Q','h')]
      = some [('A','h'), ('A','s'), ('J','s'), ('K','s'), ('Q','s')] := by
  exact ⟨by decide, by decide, by decide, by decide, by decide⟩

/-! ## Claim C5: the precomputed suit table is total on suit 5-tuples. -/

/-- Looking up a key in an association list built by tagging each element of
a list with a value always succeeds for elements of the list. -/
theorem alookup_tag_isSome {α β : Type} [DecidableEq α] (f : α → β) (l : List α) :
    ∀ k ∈ l, (alookup (l.map fun t => (t, f t)) k).isSome := by
  induction l with
  | nil => intro k hk; cases hk
  | cons a rest ih =>
    intro k hk
    by_cases h : a = k
    · simp [alookup, h]
    · rcases List.mem_cons.mp hk with rfl | hk2
      · exact absurd rfl h
      · simpa [alookup, h] using ih k hk2

/-- Every 5-tuple over a list is in its 5-fold product. -/
theorem mem_prod5 {l : List Char} {a b c d e : Char}
    (ha : a ∈ l) (hb : b ∈ l) (hc : c ∈ l) (hd : d ∈ l) (he : e ∈ l) :
    [a, b, c, d, e] ∈ prod5 l := by
  unfold prod5
  refine List.mem_flatMap.mpr ⟨a, ha, ?_⟩
  refine List.mem_flatMap.mpr ⟨b, hb, ?_⟩
  refine List.mem_flatMap.mpr ⟨c, hc, ?_⟩
  refine List.mem_flatMap.mpr ⟨d, hd, ?_⟩
  exact List.mem_map.mpr ⟨e, he, rfl⟩

/-- A list of length 5 is literally a 5-element list. -/
theorem exists_five {α : Type} (t : List α) (h : t.length = 5) :
    ∃ a b c d e, t = [a, b, c, d, e] := by
  match t, h with
  | [a, b, c, d, e], _ => exact ⟨a, b, c, d, e, rfl⟩

/-- C5: the flat policy's precomputed table `isomorphic_suits` has exactly
4^5 = 1024 entries, contains an entry for every suit 5-tuple, and hence the
table lookup in `isomorphic_hand` never misses on any 5-card hand (the
length the flat policy is used on): `isomorphic_hand` returns a value rather
than raising `KeyError`. -/
theorem c5_isomorphic_suits_table_total :
    isomorphic_suits.length = 1024 ∧
    (∀ t : List Char, t.length = 5 → (∀ s ∈ t, s ∈ suitChars) →
      (alookup isomorphic_suits t).isSome) ∧
    (∀ hand : List Card, hand.length = 5 → (∀ c ∈ hand, c.2 ∈ suitChars) →
      (isomorphic_hand hand).isSome) := by
  have key : ∀ t : List Char, t.length = 5 → (∀ s ∈ t, s ∈ suitChars) →
      (alookup isomorphic_suits t).isSome := by
    intro t hlen hmem
    obtain ⟨a, b, c, d, e, rfl⟩ := exists_five t hlen
    have : [a, b, c, d, e] ∈ prod5 suitChars :=
      mem_prod5 (hmem a (by simp)) (hmem b (by simp)) (hmem c (by simp))
        (hmem d (by simp)) (hmem e (by simp))
    exact alookup_tag_isSome isoAssign (prod5 suitChars) _ this
  refine ⟨by decide, key, ?_⟩
  intro hand hlen hmem
  have hslen : ((sortCards hand).map Prod.snd).length = 5 := by
    simp [sortCards, List.length_insertionSort, hlen]
  have hsmem : ∀ s ∈ (sortCards hand).map Prod.snd, s ∈ suitChars := by
    intro s hs
    rcases List.mem_map.mp hs with ⟨c, hc, rfl⟩
    exact hmem c ((List.perm_insertionSort cardLE hand).mem_iff.mp hc)
  have := key _ hslen hsmem
  rw [Option.isSome_iff_exists] at this
  obtain ⟨iso, hiso⟩ := this
  simp [isomorphic_hand, hiso]

/-- Witness for C5 at a concrete suit tuple and a concrete 5-card hand. -/
theorem c5_isomorphic_suits_table_total_witness :
    (alookup isomorphic_suits ['c', 'd', 'h', 's', 'c']).isSome ∧
    (isomorphic_hand [('2','c'), ('7','d'), ('9','h'), ('J','s'), ('K','c')]).isSome :=
  ⟨c5_isomorphic_suits_table_total.2.1 ['c', 'd', 'h', 's', 'c'] (by decide) (by decide),
   c5_isomorphic_suits_table_total.2.2 [('2','c'), ('7','d'), ('9','h'), ('J','s'), ('K','c')]
     (by decide) (by decide)⟩

/-! ## Dyadic chip amounts.

`pot_size` works with Python ints and floats; the only division is
`pot / 2`, so every amount that ever arises is a dyadic rational `m / 2^k`
— which is also exactly what Python's binary floating point represents.  We
model amounts as unnormalized dyadic fractions (numerator and power-of-two
exponent) so that every operation is a plain integer computation the kernel
can evaluate, and we read values off through `Dy.toRat`. -/

/-- A dyadic rational `m / 2^k`, not necessarily in lowest terms. -/
structure Dy where
  m : ℤ
  k : ℕ
deriving DecidableEq, Repr

/-- Embed an integer amount. -/
def Dy.ofInt (n : ℤ) : Dy := ⟨n, 0⟩

/-- Addition of dyadic fractions (cross-multiplied, no reduction). -/
def Dy.add (a b : Dy) : Dy := ⟨a.m * 2 ^ b.k + b.m * 2 ^ a.k, a.k + b.k⟩

/-- Subtraction of dyadic fractions. -/
def Dy.sub (a b : Dy) : Dy := ⟨a.m * 2 ^ b.k - b.m * 2 ^ a.k, a.k + b.k⟩

/-- Multiplication of dyadic fractions. -/
def Dy.mul (a b : Dy) : Dy := ⟨a.m * b.m, a.k + b.k⟩

/-- Halving: `x / 2`. -/
def Dy.half (a : Dy) : Dy := ⟨a.m, a.k + 1⟩

/-- Strict negativity (`x < 0`): the sign of the numerator. -/
def Dy.isNeg (a : Dy) : Prop := a.m < 0

instance (a : Dy) : Decidable a.isNeg := by unfold Dy.isNeg; infer_instance

/-- Python's `sum` of a list of amounts (left fold from 0). -/
def Dy.listSum (l : List Dy) : Dy := l.foldl Dy.add (Dy.ofInt 0)

/-- The value of a dyadic fraction as a rational number. -/
def Dy.toRat (a : Dy) : ℚ := (a.m : ℚ) / 2 ^ a.k

theorem Dy.toRat_ofInt (n : ℤ) : (Dy.ofInt n).toRat = (n : ℚ) := by
  simp [Dy.ofInt, Dy.toRat]

theorem Dy.toRat_add (a b : Dy) : (a.add b).toRat = a.toRat + b.toRat := by
  have h1 : ((2 : ℚ) ^ a.k) ≠ 0 := by positivity
  have h2 : ((2 : ℚ) ^ b.k) ≠ 0 := by positivity
  unfold Dy.add Dy.toRat
  rw [div_add_div _ _ h1 h2, pow_add]
  push_cast
  ring

theorem Dy.toRat_sub (a b : Dy) : (a.sub b).toRat = a.toRat - b.toRat := by
  have h1 : ((2 : ℚ) ^ a.k) ≠ 0 := by positivity
  have h2 : ((2 : ℚ) ^ b.k) ≠ 0 := by positivity
  unfold Dy.sub Dy.toRat
  rw [div_sub_div _ _ h1 h2, pow_add]
  push_cast
  ring

theorem Dy.toRat_mul (a b : Dy) : (a.mul b).toRat = a.toRat * b.toRat := by
  unfold Dy.mul Dy.toRat
  rw [div_mul_div_comm, pow_add]
  push_cast
  ring

theorem Dy.toRat_half (a : Dy) : a.half.toRat = a.toRat / 2 := by
  unfold Dy.half Dy.toRat
  push_cast
  rw [pow_succ]
  ring

theorem Dy.isNeg_iff (a : Dy) : a.isNeg ↔ a.toRat < 0 := by
  have hp : (0 : ℚ) < 2 ^ a.k := by positivity
  unfold Dy.isNeg Dy.toRat
  rw [div_neg_iff]
  constructor
  · intro h
    exact Or.inr ⟨by exact_mod_cast h, hp⟩
  · rintro (⟨-, h2⟩ | ⟨h1, -⟩)
    · exact absurd h2 (lt_asymm hp)
    · exact_mod_cast h1

/-! ## The betting-history state machine (`trainer_utils.py`).

Action tokens, `ActionHistory`, the `pot_size` replay, `street`, `__add__`
and `legal_actions`.  Python exceptions are modelled explicitly: `pot_size`
can raise `ValueError` (a stack went negative) or `NameError` (an unknown
postflop token reads the unassigned local variable `bet`), and
`legal_actions` catches only the former. -/

/-- The betting action vocabulary, `PREFLOP_ACTIONS` plus
`POSTFLOP_ACTIONS` (`fold`, `call`, `all-in` are shared tokens). -/
inductive Act
  | fold | call | limp | raise | threeBet | fourBet | allIn
  | check | halfPot | potBet | minRaise
deriving DecidableEq, Repr

/-- `SMALL_BLIND = 50` (unused by `pot_size` but part of the constants). -/
def SMALL_BLIND : Dy := Dy.ofInt 50

/-- `BIG_BLIND = 100`. -/
def BIG_BLIND : Dy := Dy.ofInt 100

/-- `STACK_SIZE = 20000`. -/
def STACK_SIZE : Dy := Dy.ofInt 20000

/-- `ActionHistory`: one token sequence per street.  The three postflop
streets are `Option`s (`none` = the Python `None` default, street not
reached).  The preflop sequence is a plain list: a `None` preflop is
unusable in the source (every accessor immediately raises `TypeError` on
`len(None)`), and play always starts from the empty preflop sequence. -/
structure ActionHistory where
  preflop : List Act
  flop : Option (List Act)
  turn : Option (List Act)
  river : Option (List Act)
deriving DecidableEq, Repr

/-- The five values of `ActionHistory.street()`. -/
inductive Street
  | preflop | flop | turn | river | over
deriving DecidableEq, Repr

/-- `street_is_over`: the sequence ends in a call, or in two checks. -/
def streetIsOver (s : List Act) : Bool :=
  match s.reverse with
  | Act.call :: _ => true
  | Act.check :: Act.check :: _ => true
  | _ => false

/-- `ActionHistory.street()`: scan river, turn, flop, preflop in order. -/
def ActionHistory.street (h : ActionHistory) : Street :=
  match h.river with
  | some r => if streetIsOver r then .over else .river
  | none =>
    match h.turn with
    | some t => if streetIsOver t then .river else .turn
    | none =>
      match h.flop with
      | some f => if streetIsOver f then .turn else .flop
      | none => if streetIsOver h.preflop then .flop else .preflop

/-- `current_street_history()` (`none` both for an unreached street and for
the fall-through `street == 'over'` case). -/
def ActionHistory.currentStreetHistory (h : ActionHistory) : Option (List Act) :=
  match h.street with
  | .preflop => some h.preflop
  | .flop => h.flop
  | .turn => h.turn
  | .river => h.river
  | .over => none

/-- `__add__`: append the action to the current street's sequence (starting
an empty one for a newly reached street).  When the hand is over no branch
matches and the action is silently dropped.  `conditional_copy` shallow
copies are the identity on immutable Lean lists. -/
def ActionHistory.add (h : ActionHistory) (a : Act) : ActionHistory :=
  match h.street with
  | .preflop => { h with preflop := h.preflop ++ [a] }
  | .flop => { h with flop := some (h.flop.getD [] ++ [a]) }
  | .turn => { h with turn := some (h.turn.getD [] ++ [a]) }
  | .river => { h with river := some (h.river.getD [] ++ [a]) }
  | .over => { h with }

/-- The two recoverable Python exceptions of the replay: `ValueError`
(stacks went negative) and `NameError` (unknown postflop token while the
local `bet` is unassigned). -/
inductive PotFailure
  | valueFailure | nameFailure
deriving DecidableEq, Repr

/-- Read one player's component of a 2-player pair (`false` = player 0). -/
def get2 {α : Type} (p : α × α) (i : Bool) : α :=
  if i then p.2 else p.1

/-- Update one player's component of a 2-player pair. -/
def set2 {α : Type} (p : α × α) (i : Bool) (x : α) : α × α :=
  if i then (p.1, x) else (x, p.2)

/-- `sum(bets[player])`. -/
def sumBets (bets : List Dy × List Dy) (i : Bool) : Dy :=
  Dy.listSum (get2 bets i)

/-- `bets[player].append(bet)`. -/
def appendBet (bets : List Dy × List Dy) (i : Bool) (b : Dy) : List Dy × List Dy :=
  set2 bets i (get2 bets i ++ [b])

/-- `bets[player][-1]` (both lists start as `[0]` and only grow, so the
default of `getLastD` is unreachable). -/
def lastBet (bets : List Dy × List Dy) (i : Bool) : Dy :=
  (get2 bets i).getLastD (Dy.ofInt 0)

/-- The preflop loop of `pot_size`.  State: stack sizes, acting player,
`prev_bet`, the two bet lists, and the Python local `bet` (assigned only by
the `call` branch preflop; `none` = still unbound).  `fold` breaks out of
the loop; a postflop-only token matches no branch and appends nothing but
still runs the loop tail (deducting `bets[player][-1]` again). -/
def preflopLoop : List Act → (Dy × Dy) → Bool → Dy → (List Dy × List Dy) → Option Dy →
    (Dy × Dy) × (List Dy × List Dy) × Option Dy
  | [], stks, _, _, bets, bv => (stks, bets, bv)
  | a :: rest, stks, p, prevBet, bets, bv =>
    match a with
    | .fold => (stks, bets, bv)
    | _ =>
      let (bets2, bv2) :=
        match a with
        | .limp => (appendBet bets p BIG_BLIND, bv)
        | .call =>
          let b := (sumBets bets (!p)).sub (sumBets bets p)
          (appendBet bets p b, some b)
        | .raise => (appendBet bets p ((Dy.ofInt 3).mul BIG_BLIND), bv)
        | .threeBet => (appendBet bets p ((Dy.ofInt 3).mul prevBet), bv)
        | .fourBet => (appendBet bets p ((Dy.ofInt 3).mul prevBet), bv)
        | .allIn => (appendBet bets p (get2 stks p), bv)
        | _ => (bets, bv)
      let pb := lastBet bets2 p
      preflopLoop rest (set2 stks p ((get2 stks p).sub pb)) (!p) pb bets2 bv2

/-- One postflop street's loop of `pot_size`.  `fold` breaks; an unknown
token (a preflop-only one) reuses the stale local `bet`, raising
`NameError` if it was never assigned. -/
def streetLoop : List Act → (Dy × Dy) → Bool → Dy → (List Dy × List Dy) → Dy → Option Dy →
    Option ((Dy × Dy) × (List Dy × List Dy) × Dy × Option Dy)
  | [], stks, _, _, bets, pot, bv => some (stks, bets, pot, bv)
  | a :: rest, stks, p, prevBet, bets, pot, bv =>
    match a with
    | .fold => some (stks, bets, pot, bv)
    | _ =>
      let obet : Option Dy :=
        match a with
        | .check => some (Dy.ofInt 0)
        | .call => some ((sumBets bets (!p)).sub (sumBets bets p))
        | .halfPot => some pot.half
        | .potBet => some pot
        | .minRaise => some ((Dy.ofInt 2).mul prevBet)
        | .allIn => some (get2 stks p)
        | _ => bv
      match obet with
      | none => none
      | some bet =>
        streetLoop rest (set2 stks p ((get2 stks p).sub bet)) (!p) bet
          (appendBet bets p bet) (pot.add bet) (some bet)

/-- `for street in self.flop, self.turn, self.river: if street is not None:
…` — run the three postflop streets in order, skipping absent ones. -/
def runStreets : List (Option (List Act)) → (Dy × Dy) → (List Dy × List Dy) → Dy → Option Dy →
    Option ((Dy × Dy) × (List Dy × List Dy) × Dy × Option Dy)
  | [], stks, bets, pot, bv => some (stks, bets, pot, bv)
  | none :: rest, stks, bets, pot, bv => runStreets rest stks bets pot bv
  | some s :: rest, stks, bets, pot, bv =>
    match streetLoop s stks false (Dy.ofInt 0) bets pot bv with
    | none => none
    | some (stks2, bets2, pot2, bv2) => runStreets rest stks2 bets2 pot2 bv2

/-- `pot_size(return_stack_sizes=True)` with explicit failure values:
replay preflop, then the postflop streets, then validate that neither stack
went negative (`validateStacks` is the final
`if stack_sizes[0] < 0 or stack_sizes[1] < 0: raise ValueError` check). -/
def validateStacks (pot : Dy) (stks : Dy × Dy) : Except PotFailure (Dy × (Dy × Dy)) :=
  if (get2 stks false).isNeg ∨ (get2 stks true).isNeg then .error .valueFailure
  else .ok (pot, stks)

def ActionHistory.potSizeExc (h : ActionHistory) : Except PotFailure (Dy × (Dy × Dy)) :=
  let pre :=
    preflopLoop h.preflop (STACK_SIZE, STACK_SIZE) false (Dy.ofInt 0) ([Dy.ofInt 0], [Dy.ofInt 0]) none
  let stks1 := pre.1
  let bets1 := pre.2.1
  let bv1 := pre.2.2
  let pot1 := (sumBets bets1 false).add (sumBets bets1 true)
  match runStreets [h.flop, h.turn, h.river] stks1 bets1 pot1 bv1 with
  | none => .error .nameFailure
  | some (stks, _, pot, _) => validateStacks pot stks

/-- `pot_size()` as an `Option` (any exception collapsed to `none`). -/
def ActionHistory.pot_size (h : ActionHistory) : Option (Dy × (Dy × Dy)) :=
  (h.potSizeExc).toOption

/-- The speculative-application filter at the end of `legal_actions`: keep
an action if replaying `self + action` succeeds, drop it on `ValueError`,
and propagate a `NameError` (only `ValueError` is caught). -/
def filterTrials (h : ActionHistory) : List Act → Except PotFailure (List Act)
  | [] => .ok []
  | a :: rest =>
    match (h.add a).potSizeExc with
    | .ok _ =>
      match filterTrials h rest with
      | .ok l => .ok (a :: l)
      | .error e => .error e
    | .error .valueFailure => filterTrials h rest
    | .error .nameFailure => .error .nameFailure

/-- The postflop part of `legal_actions`: compute the pot (propagating its
exceptions), pick the candidate set from the previous action, raise
`ValueError('Unknown previous action')` on any other token (the `none`
result of `postflopCands`), then filter by speculative replay. -/
def postflopCands : Option Act → Option (List Act)
  | none => some [.check, .halfPot, .potBet, .allIn]
  | some .check => some [.check, .halfPot, .potBet, .allIn]
  | some .halfPot => some [.fold, .call, .minRaise, .allIn]
  | some .potBet => some [.fold, .call, .minRaise, .allIn]
  | some .minRaise => some [.fold, .call, .minRaise, .allIn]
  | some .allIn => some [.fold, .call]
  | some _ => none

def postflopLegal (h : ActionHistory) (prev : Option Act) : Option (List Act) :=
  match h.potSizeExc with
  | .error _ => none
  | .ok _ =>
    match postflopCands prev with
    | none => none
    | some cs =>
      match filterTrials h cs with
      | .ok l => some l
      | .error _ => none

/-- The previous action in the current street (`None`/`none` for a fresh
street or an over hand). -/
def prevAction (h : ActionHistory) : Option Act :=
  match h.currentStreetHistory with
  | none => none
  | some l => l.getLast?

/-- `legal_actions()`: the preflop table for the six preflop previous
actions; anything else (including a fold-terminated preflop, which matches
no preflop branch) falls through to the postflop code. -/
def ActionHistory.legal_actions (h : ActionHistory) : Option (List Act) :=
  let prev : Option Act := prevAction h
  if h.street = .preflop then
    match prev with
    | none => some [.fold, .limp, .raise]
    | some .limp => some [.fold, .call, .raise]
    | some .raise => some [.fold, .call, .threeBet]
    | some .threeBet => some [.fold, .call, .fourBet, .allIn]
    | some .fourBet => some [.fold, .call, .allIn]
    | some .allIn => some [.fold, .call]
    | some _ => postflopLegal h prev
  else postflopLegal h prev

/-- The legal-action set as a plain list (empty when `legal_actions`
raises). -/
def legalActionsD (h : ActionHistory) : List Act :=
  (h.legal_actions).getD []

/-- The empty starting history: empty preflop sequence, no postflop
streets. -/
def emptyHistory : ActionHistory := ⟨[], none, none, none⟩

/-- Histories assembled from the empty history by repeatedly appending an
action offered by `legal_actions` at that step. -/
inductive Reach : ActionHistory → Prop
  | base : Reach emptyHistory
  | step {h : ActionHistory} (a : Act) : Reach h → a ∈ legalActionsD h → Reach (h.add a)

/-- C8: appending to an in-progress history is pure and frame-preserving:
`h + a` is a new value whose current street's sequence is `h`'s with `a`
appended (an unreached street starts from the empty sequence), and the
other three street sequences are exactly `h`'s own, which — histories being
immutable values here, as the source's `conditional_copy` shallow copies
guarantee for the Python lists — are left exactly as they were. -/
theorem c8_add_is_copy_on_write_append (h : ActionHistory) (a : Act)
    (hs : h.street ≠ .over) :
    (h.street = .preflop →
      h.add a = ⟨h.preflop ++ [a], h.flop, h.turn, h.river⟩) ∧
    (h.street = .flop →
      h.add a = ⟨h.preflop, some (h.flop.getD [] ++ [a]), h.turn, h.river⟩) ∧
    (h.street = .turn →
      h.add a = ⟨h.preflop, h.flop, some (h.turn.getD [] ++ [a]), h.river⟩) ∧
    (h.street = .river →
      h.add a = ⟨h.preflop, h.flop, h.turn, some (h.river.getD [] ++ [a])⟩) := by
  refine ⟨?_, ?_, ?_, ?_⟩ <;> intro hst <;> simp [ActionHistory.add, hst]

/-- Witness for C8 at the empty history and at a flop history. -/
theorem c8_add_is_copy_on_write_append_witness :
    emptyHistory.add .limp = ⟨[.limp], none, none, none⟩ ∧
    (⟨[.limp, .call], none, none, none⟩ : ActionHistory).add .halfPot
      = ⟨[.limp, .call], some [.halfPot], none, none⟩ := by
  constructor
  · exact ((c8_add_is_copy_on_write_append emptyHistory .limp (by decide)).1 (by decide))
  · exact ((c8_add_is_copy_on_write_append ⟨[.limp, .call], none, none, none⟩ .halfPot
      (by decide)).2.1 (by decide))

/-! ## Reachable histories: the preflop automaton and the stack invariant.

Preflop appends are not filtered by speculative replay, but the preflop
grammar is a finite automaton whose reachable sequences we enumerate
explicitly; postflop appends are guarded by the `legal_actions` filter. -/

/-- A history consisting only of a preflop sequence. -/
def pfOnly (p : List Act) : ActionHistory := ⟨p, none, none, none⟩

/-- All preflop action sequences reachable through `legal_actions`:
paths of the automaton `start → {fold, limp, raise}`, `limp → {fold, call,
raise}`, `raise → {fold, call, 3-bet}`, `3-bet → {fold, call, 4-bet,
all-in}`, `4-bet → {fold, call, all-in}`, `all-in → {fold, call}` (`call`
and `fold` are terminal). -/
def preflopSeqs : List (List Act) :=
  [ [],
    [.fold], [.limp], [.raise],
    [.limp, .fold], [.limp, .call], [.limp, .raise],
    [.raise, .fold], [.raise, .call], [.raise, .threeBet],
    [.limp, .raise, .fold], [.limp, .raise, .call], [.limp, .raise, .threeBet],
    [.raise, .threeBet, .fold], [.raise, .threeBet, .call],
    [.raise, .threeBet, .fourBet], [.raise, .threeBet, .allIn],
    [.limp, .raise, .threeBet, .fold], [.limp, .raise, .threeBet, .call],
    [.limp, .raise, .threeBet, .fourBet], [.limp, .raise, .threeBet, .allIn],
    [.raise, .threeBet, .fourBet, .fold], [.raise, .threeBet, .fourBet, .call],
    [.raise, .threeBet, .fourBet, .allIn],
    [.raise, .threeBet, .allIn, .fold], [.raise, .threeBet, .allIn, .call],
    [.limp, .raise, .threeBet, .fourBet, .fold], [.limp, .raise, .threeBet, .fourBet, .call],
    [.limp, .raise, .threeBet, .fourBet, .allIn],
    [.limp, .raise, .threeBet, .allIn, .fold], [.limp, .raise, .threeBet, .allIn, .call],
    [.raise, .threeBet, .fourBet, .allIn, .fold], [.raise, .threeBet, .fourBet, .allIn, .call],
    [.limp, .raise, .threeBet, .fourBet, .allIn, .fold],
    [.limp, .raise, .threeBet, .fourBet, .allIn, .call] ]

/-- Every enumerated preflop sequence replays without failure: the fixed
preflop bet sizes and all-in/call amounts never exceed the stacks. -/
theorem preflopSeqs_pot : ∀ p ∈ preflopSeqs, ((pfOnly p).pot_size).isSome := by
  decide

/-- The enumeration is closed under legal preflop appends. -/
theorem preflopSeqs_closed : ∀ p ∈ preflopSeqs, (pfOnly p).street = Street.preflop →
    ∀ a ∈ legalActionsD (pfOnly p), (p ++ [a]) ∈ preflopSeqs := by
  decide

/-- For every enumerated preflop after which the flop may open with a legal
`half_pot`, the legal actions at the `(half_pot,)` flop are exactly
`fold, call, min_raise, all-in`. -/
theorem preflopSeqs_halfpot : ∀ p ∈ preflopSeqs, (pfOnly p).street = Street.flop →
    Act.halfPot ∈ legalActionsD (pfOnly p) →
    (⟨p, some [.halfPot], none, none⟩ : ActionHistory).legal_actions
      = some [.fold, .call, .minRaise, .allIn] := by
  decide

/-- Actions kept by the speculative-replay filter replay successfully. -/
theorem filterTrials_ok_mem {h : ActionHistory} :
    ∀ {cs l : List Act}, filterTrials h cs = .ok l →
      ∀ {a : Act}, a ∈ l → ((h.add a).pot_size).isSome
  | [], l, hf, a, ha => by
    unfold filterTrials at hf
    cases hf
    cases ha
  | c :: rest, l, hf, a, ha => by
    unfold filterTrials at hf
    split at hf
    next v hpot =>
      split at hf
      next l2 hrest =>
        cases hf
        rcases List.mem_cons.mp ha with rfl | ha2
        · simp [ActionHistory.pot_size, hpot, Except.toOption]
        · exact filterTrials_ok_mem hrest ha2
      next e hrest => cases hf
    next hpot => exact filterTrials_ok_mem hf ha
    next hpot => cases hf

/-- Membership in a postflop legal set implies the appended history
replays successfully. -/
theorem mem_postflopLegal_pot {h : ActionHistory} {prev : Option Act} {a : Act}
    {l : List Act} (hl : postflopLegal h prev = some l) (ha : a ∈ l) :
    ((h.add a).pot_size).isSome := by
  unfold postflopLegal at hl
  split at hl
  next e hpot => cases hl
  next v hpot =>
    split at hl
    next hc => cases hl
    next cs hc =>
      split at hl
      next l2 hft =>
        cases hl
        exact filterTrials_ok_mem hft ha
      next e hft => cases hl

/-- Unpack membership in `legalActionsD`. -/
theorem mem_legalActionsD {h : ActionHistory} {a : Act} (ha : a ∈ legalActionsD h) :
    ∃ l, h.legal_actions = some l ∧ a ∈ l := by
  unfold legalActionsD at ha
  cases hl : h.legal_actions with
  | none => rw [hl] at ha; cases ha
  | some l => rw [hl] at ha; exact ⟨l, rfl, ha⟩

/-- A history with any postflop street present is past the preflop. -/
theorem street_ne_preflop_of_postflop {h : ActionHistory}
    (hp : h.flop ≠ none ∨ h.turn ≠ none ∨ h.river ≠ none) :
    h.street ≠ .preflop := by
  rcases h with ⟨p, f, t, r⟩
  unfold ActionHistory.street
  rcases r with - | r
  · rcases t with - | t
    · rcases f with - | f
      · simp at hp
      · dsimp only
        split <;> simp
    · dsimp only
      split <;> simp
  · dsimp only
    split <;> simp

/-- A history with all street fields empty is `pfOnly` of its preflop. -/
theorem eq_pfOnly {h : ActionHistory} (hf : h.flop = none) (ht : h.turn = none)
    (hr : h.river = none) : h = pfOnly h.preflop := by
  rcases h with ⟨p, f, t, r⟩
  simp_all [pfOnly]

/-- With no postflop street present, the street is flop or preflop. -/
theorem street_of_no_postflop {h : ActionHistory} (hf : h.flop = none)
    (ht : h.turn = none) (hr : h.river = none) :
    h.street = .flop ∨ h.street = .preflop := by
  rcases h with ⟨p, f, t, r⟩
  cases hf; cases ht; cases hr
  unfold ActionHistory.street
  dsimp only
  split <;> simp

/-- With no turn or river, the street is at most the turn. -/
theorem street_of_no_turn {h : ActionHistory} (ht : h.turn = none)
    (hr : h.river = none) :
    h.street = .turn ∨ h.street = .flop ∨ h.street = .preflop := by
  rcases h with ⟨p, f, t, r⟩
  cases ht; cases hr
  unfold ActionHistory.street
  rcases f with - | f
  · dsimp only; split <;> simp
  · dsimp only; split <;> simp

/-- A history whose flop is exactly `(half_pot,)` with no later streets is
on the flop. -/
theorem street_of_halfpot_flop {h : ActionHistory} (hf : h.flop = some [Act.halfPot])
    (ht : h.turn = none) (hr : h.river = none) : h.street = .flop := by
  rcases h with ⟨p, f, t, r⟩
  cases hf; cases ht; cases hr
  unfold ActionHistory.street
  simp [streetIsOver]

/-- The invariant maintained by legally assembled histories: the replay
succeeds, the preflop sequence is one of the enumerated automaton paths,
streets are populated in order, and a `(half_pot,)` flop records a legally
opened flop bet. -/
def HistInv (h : ActionHistory) : Prop :=
  (h.pot_size).isSome ∧
  h.preflop ∈ preflopSeqs ∧
  (h.street = .preflop → h.flop = none ∧ h.turn = none ∧ h.river = none) ∧
  (h.flop = none → h.turn = none) ∧
  (h.turn = none → h.river = none) ∧
  h.flop ≠ some [] ∧
  (h.flop = some [Act.halfPot] →
    h.turn = none ∧ Act.halfPot ∈ legalActionsD (pfOnly h.preflop) ∧
    (pfOnly h.preflop).street = .flop)

/-- Every legally reachable history satisfies the invariant. -/
theorem reach_inv : ∀ {h : ActionHistory}, Reach h → HistInv h := by
  intro h hr
  induction hr with
  | base => unfold HistInv; decide
  | step a hre ha ih =>
    rename_i h
    unfold HistInv
    obtain ⟨ih1, ih2, ih3, ih4, ih5, ih6, ih7⟩ := ih
    cases hst : h.street with
    | preflop =>
      obtain ⟨hf, ht, hrv⟩ := ih3 hst
      have hpf := eq_pfOnly hf ht hrv
      rw [hpf] at hst ha
      have hadd : h.add a = pfOnly (h.preflop ++ [a]) := by
        rw [hpf]
        unfold ActionHistory.add
        rw [hst]
        rfl
      rw [hadd]
      have hmem := preflopSeqs_closed h.preflop ih2 hst a ha
      refine ⟨preflopSeqs_pot _ hmem, hmem, fun _ => ⟨rfl, rfl, rfl⟩,
        fun _ => rfl, fun _ => rfl, by simp [pfOnly], fun hc => by cases hc⟩
    | flop =>
      have hadd : h.add a = ⟨h.preflop, some (h.flop.getD [] ++ [a]), h.turn, h.river⟩ := by
        simp [ActionHistory.add, hst]
      obtain ⟨l, hl, hal⟩ := mem_legalActionsD ha
      unfold ActionHistory.legal_actions at hl
      rw [if_neg (by rw [hst]; intro hc; cases hc)] at hl
      have hpot := mem_postflopLegal_pot hl hal
      rw [hadd] at hpot
      rw [hadd]
      refine ⟨hpot, ih2, ?_, ?_, ?_, ?_, ?_⟩
      · intro hc
        exact absurd hc (street_ne_preflop_of_postflop (Or.inl (by simp)))
      · intro hc
        exact absurd hc (by simp)
      · exact fun hc => ih5 hc
      · simp
      · intro hc
        have happ : h.flop.getD [] ++ [a] = [Act.halfPot] := Option.some.inj hc
        have hnil : h.flop.getD [] = [] ∧ a = Act.halfPot := by
          rcases hfl : h.flop.getD [] with - | ⟨x, xs⟩
          · rw [hfl] at happ; simp at happ; exact ⟨rfl, happ⟩
          · rw [hfl] at happ
            have := congrArg List.length happ
            simp at this
        obtain ⟨hnil1, rfl⟩ := hnil
        have hfnone : h.flop = none := by
          rcases hf2 : h.flop with - | fl
          · rfl
          · rw [hf2] at hnil1
            simp at hnil1
            rw [hnil1] at hf2
            exact absurd hf2 ih6
        have ht := ih4 hfnone
        have hrv := ih5 ht
        have hpf := eq_pfOnly hfnone ht hrv
        rw [hpf] at hst ha
        exact ⟨ht, ha, hst⟩
    | turn =>
      have hadd : h.add a = ⟨h.preflop, h.flop, some (h.turn.getD [] ++ [a]), h.river⟩ := by
        simp [ActionHistory.add, hst]
      obtain ⟨l, hl, hal⟩ := mem_legalActionsD ha
      unfold ActionHistory.legal_actions at hl
      rw [if_neg (by rw [hst]; intro hc; cases hc)] at hl
      have hpot := mem_postflopLegal_pot hl hal
      rw [hadd] at hpot
      rw [hadd]
      have hfsome : h.flop ≠ none := by
        intro hfn
        have ht := ih4 hfn
        have hrv := ih5 ht
        rcases street_of_no_postflop hfn ht hrv with hs2 | hs2 <;>
          rw [hst] at hs2 <;> cases hs2
      refine ⟨hpot, ih2, ?_, ?_, ?_, ih6, ?_⟩
      · intro hc
        exact absurd hc (street_ne_preflop_of_postflop (Or.inr (Or.inl (by simp))))
      · intro hc
        have hc2 : h.flop = none := hc
        exact absurd hc2 hfsome
      · intro hc
        exact absurd hc (by simp)
      · intro hc
        have hc2 : h.flop = some [Act.halfPot] := hc
        obtain ⟨ht, -, -⟩ := ih7 hc2
        have hrv := ih5 ht
        have hflp := street_of_halfpot_flop hc2 ht hrv
        rw [hst] at hflp
        cases hflp
    | river =>
      have hadd : h.add a = ⟨h.preflop, h.flop, h.turn, some (h.river.getD [] ++ [a])⟩ := by
        simp [ActionHistory.add, hst]
      obtain ⟨l, hl, hal⟩ := mem_legalActionsD ha
      unfold ActionHistory.legal_actions at hl
      rw [if_neg (by rw [hst]; intro hc; cases hc)] at hl
      have hpot := mem_postflopLegal_pot hl hal
      rw [hadd] at hpot
      rw [hadd]
      refine ⟨hpot, ih2, ?_, ?_, ?_, ih6, ?_⟩
      · intro hc
        exact absurd hc (street_ne_preflop_of_postflop (Or.inr (Or.inr (by simp))))
      · exact fun hc => ih4 hc
      · intro hc
        have hc2 : h.turn = none := hc
        have hrv := ih5 hc2
        rcases street_of_no_turn hc2 hrv with hs2 | hs2 | hs2 <;>
          rw [hst] at hs2 <;> cases hs2
      · intro hc
        have hc2 : h.flop = some [Act.halfPot] := hc
        obtain ⟨ht, -, -⟩ := ih7 hc2
        have hrv := ih5 ht
        have hflp := street_of_halfpot_flop hc2 ht hrv
        rw [hst] at hflp
        cases hflp
    | over =>
      have hadd : h.add a = h := by
        rcases h with ⟨p, f, t, r⟩
        simp only [ActionHistory.add, hst]
      rw [hadd]
      exact ⟨ih1, ih2, ih3, ih4, ih5, ih6, ih7⟩

/-- A successful `pot_size` is an `ok` replay result. -/
theorem potSizeExc_of_isSome {h : ActionHistory} (hs : (h.pot_size).isSome) :
    ∃ v, h.potSizeExc = .ok v := by
  unfold ActionHistory.pot_size at hs
  cases hp : h.potSizeExc with
  | ok v => exact ⟨v, rfl⟩
  | error e => rw [hp] at hs; simp [Except.toOption] at hs

/-- An `ok` replay passed the final stack validation: neither stack is
negative. -/
theorem potSizeExc_ok_nonneg {h : ActionHistory} {pot : Dy} {stks : Dy × Dy}
    (hok : h.potSizeExc = .ok (pot, stks)) :
    ¬ stks.1.isNeg ∧ ¬ stks.2.isNeg := by
  simp only [ActionHistory.potSizeExc] at hok
  split at hok
  next => cases hok
  next s2 heq =>
    unfold validateStacks at hok
    split at hok
    next => cases hok
    next hguard =>
      cases hok
      exact ⟨fun hn => hguard (Or.inl hn), fun hn => hguard (Or.inr hn)⟩

/-- C4: every history assembled only from `legal_actions`-offered actions
replays successfully, and the replay leaves both stacks non-negative: the
stack-validation `ValueError` of `pot_size` is unreachable on legal
histories. -/
theorem c4_legal_histories_keep_stacks_nonneg (h : ActionHistory) (hr : Reach h) :
    ∃ pot stks, h.potSizeExc = .ok (pot, stks) ∧
      0 ≤ (stks.1).toRat ∧ 0 ≤ (stks.2).toRat := by
  obtain ⟨hsome, -⟩ := reach_inv hr
  obtain ⟨⟨pot, stks⟩, hok⟩ := potSizeExc_of_isSome hsome
  obtain ⟨h1, h2⟩ := potSizeExc_ok_nonneg hok
  rw [Dy.isNeg_iff] at h1 h2
  exact ⟨pot, stks, hok, le_of_not_lt h1, le_of_not_lt h2⟩

/-- Witness for C4 at the legally assembled history
`preflop (limp, call)`, `flop (half_pot,)`. -/
theorem c4_legal_histories_keep_stacks_nonneg_witness :
    ∃ pot stks,
      (((emptyHistory.add .limp).add .call).add Act.halfPot).potSizeExc
        = .ok (pot, stks) ∧ 0 ≤ (stks.1).toRat ∧ 0 ≤ (stks.2).toRat :=
  c4_legal_histories_keep_stacks_nonneg _
    (Reach.step Act.halfPot
      (Reach.step Act.call (Reach.step Act.limp Reach.base (by decide)) (by decide))
      (by decide))

theorem Dy.toRat_foldl (l : List Dy) : ∀ acc : Dy,
    (l.foldl Dy.add acc).toRat = acc.toRat + (l.map Dy.toRat).sum := by
  induction l with
  | nil => intro acc; simp
  | cons x xs ih =>
    intro acc
    simp only [List.foldl_cons, List.map_cons, List.sum_cons]
    rw [ih (acc.add x), Dy.toRat_add]
    ring

/-- Python's `sum` of bet amounts, valued in ℚ. -/
theorem Dy.toRat_listSum (l : List Dy) :
    (Dy.listSum l).toRat = (l.map Dy.toRat).sum := by
  unfold Dy.listSum
  rw [Dy.toRat_foldl]
  simp [Dy.toRat_ofInt]

/-- C6: (a) on every legally reachable history whose flop sequence is
exactly `(half_pot,)`, `legal_actions` returns exactly
`(fold, call, min_raise, all-in)`; (b) on any street entered with equal
player contributions and live pot `P`, playing `half_pot` then `call`
leaves the pot at `P + 2 × (P / 2)`. -/
theorem c6_halfpot_flop_scenario :
    (∀ h : ActionHistory, Reach h → h.flop = some [Act.halfPot] →
      h.legal_actions = some [.fold, .call, .minRaise, .allIn]) ∧
    (∀ (stks : Dy × Dy) (bets : List Dy × List Dy) (pot : Dy) (bv : Option Dy),
      (sumBets bets false).toRat = (sumBets bets true).toRat →
      ∃ stks2 bets2 potFinal bv2,
        streetLoop [Act.halfPot, Act.call] stks false (Dy.ofInt 0) bets pot bv
          = some (stks2, bets2, potFinal, bv2) ∧
        potFinal.toRat = pot.toRat + 2 * (pot.toRat / 2)) := by
  constructor
  · intro h hr hc
    obtain ⟨-, ih2, -, -, ih5, -, ih7⟩ := reach_inv hr
    obtain ⟨ht, hleg, hfl⟩ := ih7 hc
    have hrv := ih5 ht
    have hshape : h = ⟨h.preflop, some [Act.halfPot], none, none⟩ := by
      rcases h with ⟨p, f, t, r⟩
      simp_all
    rw [hshape]
    exact preflopSeqs_halfpot h.preflop ih2 hfl hleg
  · intro stks bets pot bv hsum
    refine ⟨_, _, _, _, rfl, ?_⟩
    have e1 : sumBets (appendBet bets false pot.half) false
        = Dy.listSum (bets.1 ++ [pot.half]) := rfl
    have e2 : sumBets (appendBet bets false pot.half) true = Dy.listSum bets.2 := rfl
    have e3 : sumBets bets false = Dy.listSum bets.1 := rfl
    have e4 : sumBets bets true = Dy.listSum bets.2 := rfl
    rw [e3, e4, Dy.toRat_listSum, Dy.toRat_listSum] at hsum
    simp only [Bool.not_false, Bool.not_true, Dy.toRat_add, Dy.toRat_sub,
      Dy.toRat_half, e1, e2, Dy.toRat_listSum, List.map_append, List.sum_append,
      List.map_cons, List.map_nil, List.sum_cons, List.sum_nil]
    rw [hsum]
    ring

/-- Witness for C6: the flop `(half_pot,)` after `preflop (limp, call)`,
and a street entered with contributions 100/100 and pot 200. -/
theorem c6_halfpot_flop_scenario_witness :
    ((((emptyHistory.add .limp).add .call).add Act.halfPot).legal_actions
      = some [.fold, .call, .minRaise, .allIn]) ∧
    (∃ stks2 bets2 potFinal bv2,
      streetLoop [Act.halfPot, Act.call] (Dy.ofInt 19900, Dy.ofInt 19900) false (Dy.ofInt 0)
          ([Dy.ofInt 0, Dy.ofInt 100], [Dy.ofInt 0, Dy.ofInt 100]) (Dy.ofInt 200) none
        = some (stks2, bets2, potFinal, bv2) ∧
      potFinal.toRat = (Dy.ofInt 200).toRat + 2 * ((Dy.ofInt 200).toRat / 2)) :=
  ⟨c6_halfpot_flop_scenario.1 _
      (Reach.step Act.halfPot
        (Reach.step Act.call (Reach.step Act.limp Reach.base (by decide)) (by decide))
        (by decide))
      (by decide),
   c6_halfpot_flop_scenario.2 _ _ _ _ rfl⟩

/-! ## The Regret Node (`trainer_utils.py`, class `Node`).

Regret and strategy-mass values are arbitrary signed reals, modelled by ℚ.
Python dicts are association lists (insertion order preserved); a missing
key is a `KeyError`, modelled by `none`.  The node's infoset enters only
through its fixed legal-action list, bound at construction. -/

/-- `d[a] += x` on a dict: update the value at the first matching key. -/
def updateAdd : List (Act × ℚ) → Act → ℚ → List (Act × ℚ)
  | [], _, _ => []
  | (b, v) :: rest, a, x =>
    if b = a then (b, v + x) :: rest else (b, v) :: updateAdd rest a x

/-- `normalize` from `trainer_utils.py` (named `dictNormalize` here, since
Mathlib owns the name `normalize`): divide every value by the total
(in place).  With at least one key and a zero total, the first division
raises `ZeroDivisionError` (`none`); with no keys the loop body never runs
and the empty dict is returned unchanged. -/
def dictNormalize (d : List (Act × ℚ)) : Option (List (Act × ℚ)) :=
  if d = [] then some []
  else if (d.map Prod.snd).sum = 0 then none
  else some (d.map fun e => (e.1, e.2 / (d.map Prod.snd).sum))

/-- A Regret Node: the fixed legal-action list of its infoset, cumulative
regrets, the reach-weighted strategy-mass accumulator, and the visit
counter (the unused `alpha`, `beta`, `gamma` parameters are omitted). -/
structure Node where
  actions : List Act
  regrets : List (Act × ℚ)
  weighted_strategy_sum : List (Act × ℚ)
  t : ℕ
deriving DecidableEq, Repr

/-- `Node.__init__`: zero regrets for each legal action, the strategy-sum
accumulator a copy of that, visit counter zero. -/
def mkNode (acts : List Act) : Node :=
  ⟨acts, acts.map fun a => (a, 0), acts.map fun a => (a, 0), 0⟩

/-- `add_regret`: `self.regrets[action] += regret`.  A `KeyError` on the
read happens before any write, so a failed call mutates nothing. -/
def Node.add_regret (n : Node) (a : Act) (r : ℚ) : Option Node :=
  match alookup n.regrets a with
  | none => none
  | some _ => some { n with regrets := updateAdd n.regrets a r }

/-- The `else` branch of `current_strategy`: for each legal action read its
regret (`KeyError` = `none`) and clamp negatives to zero. -/
def clampStrategy : List Act → List (Act × ℚ) → Option (List (Act × ℚ))
  | [], _ => some []
  | a :: rest, regrets =>
    match alookup regrets a with
    | none => none
    | some chance =>
      (clampStrategy rest regrets).map
        (fun l => (a, if chance < 0 then 0 else chance) :: l)

/-- The strategy-sum update loop of `current_strategy`:
`self.weighted_strategy_sum[action] += strategy[action] * prob`. -/
def bumpAll : List Act → List (Act × ℚ) → List (Act × ℚ) → ℚ → Option (List (Act × ℚ))
  | [], _, wss, _ => some wss
  | a :: rest, st, wss, p =>
    match alookup st a, alookup wss a with
    | some sv, some _ => bumpAll rest st (updateAdd wss a (sv * p)) p
    | _, _ => none

/-- `current_strategy(prob)`: regret matching over the fixed action list —
all-ones if the total regret is exactly zero, otherwise clamped regrets —
then `normalize`, then the strategy-sum side effect and the visit counter
bump (only when `prob > 0`).  Any raised exception is `none`. -/
def Node.current_strategy (n : Node) (prob : ℚ) : Option (List (Act × ℚ) × Node) :=
  let strat0 : Option (List (Act × ℚ)) :=
    if (n.regrets.map Prod.snd).sum = 0 then
      some (n.actions.map fun a => (a, (1 : ℚ)))
    else clampStrategy n.actions n.regrets
  match strat0 with
  | none => none
  | some s0 =>
    match dictNormalize s0 with
    | none => none
    | some st =>
      match bumpAll n.actions st n.weighted_strategy_sum prob with
      | none => none
      | some wss2 =>
        some (st, { n with weighted_strategy_sum := wss2,
                           t := if 0 < prob then n.t + 1 else n.t })

/-- `cumulative_strategy()`: normalize a fresh all-ones dict when the
accumulator totals zero; otherwise `strategy` *aliases* the accumulator and
`normalize` rescales it in place, so the returned node carries the
normalized accumulator. -/
def Node.cumulative_strategy (n : Node) : Option (List (Act × ℚ) × Node) :=
  if (n.weighted_strategy_sum.map Prod.snd).sum = 0 then
    match dictNormalize (n.actions.map fun a => (a, (1 : ℚ))) with
    | none => none
    | some st => some (st, n)
  else
    match dictNormalize n.weighted_strategy_sum with
    | none => none
    | some st => some (st, { n with weighted_strategy_sum := st })

/-- Node states reachable from construction by successful `add_regret`,
`current_strategy` (with non-negative reach probability) and
`cumulative_strategy` calls. -/
inductive NodeReach (acts : List Act) : Node → Prop
  | base : NodeReach acts (mkNode acts)
  | addR {n n2 : Node} (a : Act) (r : ℚ) :
      NodeReach acts n → n.add_regret a r = some n2 → NodeReach acts n2
  | curr {n n2 : Node} {st : List (Act × ℚ)} (p : ℚ) :
      0 ≤ p → NodeReach acts n → n.current_strategy p = some (st, n2) →
      NodeReach acts n2
  | cumul {n n2 : Node} {st : List (Act × ℚ)} :
      NodeReach acts n → n.cumulative_strategy = some (st, n2) → NodeReach acts n2

theorem alookup_isSome_iff_mem {α β : Type} [DecidableEq α] (l : List (α × β)) (a : α) :
    (alookup l a).isSome ↔ a ∈ l.map Prod.fst := by
  induction l with
  | nil => simp [alookup]
  | cons e rest ih =>
    rcases e with ⟨b, v⟩
    by_cases hb : b = a
    · subst hb; simp [alookup]
    · simp only [alookup, if_neg hb, List.map_cons, List.mem_cons, ih]
      constructor
      · exact Or.inr
      · rintro (rfl | hm)
        · exact absurd rfl hb
        · exact hm

theorem alookup_eq_none {α β : Type} [DecidableEq α] {l : List (α × β)} {a : α}
    (ha : a ∉ l.map Prod.fst) : alookup l a = none := by
  cases hl : alookup l a with
  | none => rfl
  | some v =>
    exact absurd ((alookup_isSome_iff_mem l a).mp (by rw [hl]; rfl)) ha

theorem alookup_mem {α β : Type} [DecidableEq α] :
    ∀ {l : List (α × β)} {a : α} {v : β}, alookup l a = some v → (a, v) ∈ l
  | [], a, v, h => by cases h
  | (b, w) :: rest, a, v, h => by
    unfold alookup at h
    by_cases hb : b = a
    · rw [if_pos hb] at h
      cases h
      subst hb
      exact List.mem_cons_self _ _
    · rw [if_neg hb] at h
      exact List.mem_cons_of_mem _ (alookup_mem h)

theorem alookup_of_mem_nodup {α β : Type} [DecidableEq α] :
    ∀ {l : List (α × β)} {a : α} {v : β}, (l.map Prod.fst).Nodup →
      (a, v) ∈ l → alookup l a = some v
  | [], a, v, _, hm => by cases hm
  | (b, w) :: rest, a, v, hnd, hm => by
    rcases List.mem_cons.mp hm with heq | hm2
    · cases heq
      simp [alookup]
    · have ha : a ∈ rest.map Prod.fst := List.mem_map.mpr ⟨(a, v), hm2, rfl⟩
      have hb : b ≠ a := by
        rintro rfl
        exact (List.nodup_cons.mp (by simpa using hnd)).1 ha
      rw [alookup, if_neg hb]
      exact alookup_of_mem_nodup (List.nodup_cons.mp (by simpa using hnd)).2 hm2

theorem updateAdd_keys : ∀ (l : List (Act × ℚ)) (a : Act) (x : ℚ),
    (updateAdd l a x).map Prod.fst = l.map Prod.fst
  | [], _, _ => rfl
  | (b, v) :: rest, a, x => by
    by_cases hb : b = a <;>
      simp [updateAdd, hb, updateAdd_keys rest a x]

theorem updateAdd_nonneg : ∀ {l : List (Act × ℚ)} {a : Act} {x : ℚ},
    (∀ e ∈ l, 0 ≤ e.2) → 0 ≤ x → ∀ e ∈ updateAdd l a x, 0 ≤ e.2
  | [], _, _, _, _, e, he => by cases he
  | (b, v) :: rest, a, x, hl, hx, e, he => by
    unfold updateAdd at he
    by_cases hb : b = a
    · rw [if_pos hb] at he
      rcases List.mem_cons.mp he with rfl | hm
      · exact add_nonneg (hl (b, v) (List.mem_cons_self _ _)) hx
      · exact hl e (List.mem_cons_of_mem _ hm)
    · rw [if_neg hb] at he
      rcases List.mem_cons.mp he with rfl | hm
      · exact hl (b, v) (List.mem_cons_self _ _)
      · exact updateAdd_nonneg (fun e2 he2 => hl e2 (List.mem_cons_of_mem _ he2)) hx e hm

theorem sum_map_div (l : List ℚ) (t : ℚ) : (l.map fun x => x / t).sum = l.sum / t := by
  induction l with
  | nil => simp
  | cons x xs ih => simp [ih, add_div]

theorem dictNormalize_keys {d st : List (Act × ℚ)} (h : dictNormalize d = some st) :
    st.map Prod.fst = d.map Prod.fst := by
  unfold dictNormalize at h
  by_cases hd : d = []
  · rw [if_pos hd] at h
    cases h
    rw [hd]
  · rw [if_neg hd] at h
    by_cases htot : (d.map Prod.snd).sum = 0
    · rw [if_pos htot] at h; cases h
    · rw [if_neg htot] at h
      cases h
      simp

theorem dictNormalize_sum_one {d st : List (Act × ℚ)} (h : dictNormalize d = some st)
    (hne : d ≠ []) : (st.map Prod.snd).sum = 1 := by
  unfold dictNormalize at h
  rw [if_neg hne] at h
  by_cases htot : (d.map Prod.snd).sum = 0
  · rw [if_pos htot] at h; cases h
  · rw [if_neg htot] at h
    cases h
    rw [List.map_map]
    have hco : (List.map (Prod.snd ∘ fun e2 : Act × ℚ =>
        (e2.1, e2.2 / ((List.map Prod.snd d).sum))) d)
        = (List.map Prod.snd d).map
            (fun x => x / (List.map Prod.snd d).sum) := by
      rw [List.map_map]
      rfl
    rw [hco, sum_map_div, div_self htot]

theorem dictNormalize_nonneg {d st : List (Act × ℚ)} (h : dictNormalize d = some st)
    (hpos : ∀ e ∈ d, 0 ≤ e.2) : ∀ e ∈ st, 0 ≤ e.2 := by
  unfold dictNormalize at h
  by_cases hd : d = []
  · rw [if_pos hd] at h
    cases h
    intro e he
    cases he
  · rw [if_neg hd] at h
    by_cases htot : (d.map Prod.snd).sum = 0
    · rw [if_pos htot] at h; cases h
    · rw [if_neg htot] at h
      cases h
      intro e he
      rcases List.mem_map.mp he with ⟨e2, he2, rfl⟩
      have ht0 : 0 ≤ (List.map Prod.snd d).sum :=
        List.sum_nonneg (by
          intro x hx
          rcases List.mem_map.mp hx with ⟨e3, he3, rfl⟩
          exact hpos e3 he3)
      exact div_nonneg (hpos e2 he2) ht0

theorem dictNormalize_of_ne_zero {d : List (Act × ℚ)}
    (h : (d.map Prod.snd).sum ≠ 0) :
    dictNormalize d
      = some (d.map fun e => (e.1, e.2 / (d.map Prod.snd).sum)) := by
  have hd : d ≠ [] := by
    rintro rfl
    exact h (by simp)
  unfold dictNormalize
  rw [if_neg hd, if_neg h]

theorem clampStrategy_nonneg : ∀ {acts : List Act} {w s0 : List (Act × ℚ)},
    clampStrategy acts w = some s0 → ∀ e ∈ s0, 0 ≤ e.2
  | [], w, s0, h, e, he => by cases h; cases he
  | a :: rest, w, s0, h, e, he => by
    unfold clampStrategy at h
    split at h
    · cases h
    next chance hch =>
      cases hcl : clampStrategy rest w with
      | none => rw [hcl] at h; cases h
      | some l2 =>
        rw [hcl] at h
        cases h
        rcases List.mem_cons.mp he with rfl | hm
        · dsimp only
          split
          next => exact le_refl 0
          next hneg => exact not_lt.mp hneg
        · exact clampStrategy_nonneg hcl e hm

theorem clampStrategy_skip {b : Act} {v : ℚ} {w : List (Act × ℚ)} :
    ∀ {l : List Act}, b ∉ l → clampStrategy l ((b, v) :: w) = clampStrategy l w
  | [], _ => rfl
  | a :: rest, hb => by
    have hab : ¬ b = a := fun hc => hb (hc ▸ List.mem_cons_self _ _)
    have hlk : alookup ((b, v) :: w) a = alookup w a := by
      simp [alookup, hab]
    unfold clampStrategy
    rw [hlk, clampStrategy_skip (fun hc => hb (List.mem_cons_of_mem _ hc))]

theorem clampStrategy_self : ∀ {w : List (Act × ℚ)}, (w.map Prod.fst).Nodup →
    clampStrategy (w.map Prod.fst) w
      = some (w.map fun e => (e.1, if e.2 < 0 then 0 else e.2))
  | [], _ => rfl
  | (b, v) :: rest, hnd => by
    have hnd3 : (b :: rest.map Prod.fst).Nodup := by simpa using hnd
    have hb : b ∉ rest.map Prod.fst := (List.nodup_cons.mp hnd3).1
    have hnd2 : (rest.map Prod.fst).Nodup := (List.nodup_cons.mp hnd3).2
    rw [List.map_cons]
    unfold clampStrategy
    rw [show alookup ((b, v) :: rest) b = some v by simp [alookup]]
    rw [clampStrategy_skip hb, clampStrategy_self hnd2]
    rfl

theorem bumpAll_keys : ∀ {acts : List Act} {st w : List (Act × ℚ)} {p : ℚ}
    {w2 : List (Act × ℚ)}, bumpAll acts st w p = some w2 →
    w2.map Prod.fst = w.map Prod.fst
  | [], st, w, p, w2, h => by cases h; rfl
  | a :: rest, st, w, p, w2, h => by
    unfold bumpAll at h
    split at h
    next sv hsv hw =>
      rw [bumpAll_keys h, updateAdd_keys]
    next => cases h

theorem bumpAll_nonneg : ∀ {acts : List Act} {st w : List (Act × ℚ)} {p : ℚ}
    {w2 : List (Act × ℚ)}, bumpAll acts st w p = some w2 →
    (∀ e ∈ st, 0 ≤ e.2) → (∀ e ∈ w, 0 ≤ e.2) → 0 ≤ p → ∀ e ∈ w2, 0 ≤ e.2
  | [], st, w, p, w2, h, _, hw, _, e, he => by cases h; exact hw e he
  | a :: rest, st, w, p, w2, h, hst, hw, hp, e, he => by
    unfold bumpAll at h
    split at h
    next sv wv hsv hwv =>
      have hsv0 : 0 ≤ sv := hst (a, sv) (alookup_mem hsv)
      exact bumpAll_nonneg h hst
        (updateAdd_nonneg hw (mul_nonneg hsv0 hp)) hp e he
    next => cases h

theorem bumpAll_isSome : ∀ (acts : List Act) (st w : List (Act × ℚ)) (p : ℚ),
    (∀ a ∈ acts, a ∈ st.map Prod.fst ∧ a ∈ w.map Prod.fst) →
    ∃ w2, bumpAll acts st w p = some w2
  | [], st, w, p, _ => ⟨w, rfl⟩
  | a :: rest, st, w, p, hmem => by
    obtain ⟨hst, hw⟩ := hmem a (List.mem_cons_self _ _)
    obtain ⟨sv, hsv⟩ := Option.isSome_iff_exists.mp ((alookup_isSome_iff_mem st a).mpr hst)
    obtain ⟨wv, hwv⟩ := Option.isSome_iff_exists.mp ((alookup_isSome_iff_mem w a).mpr hw)
    obtain ⟨w2, hw2⟩ := bumpAll_isSome rest st (updateAdd w a (sv * p)) p (by
      intro a2 ha2
      obtain ⟨h1, h2⟩ := hmem a2 (List.mem_cons_of_mem _ ha2)
      rw [updateAdd_keys]
      exact ⟨h1, h2⟩)
    refine ⟨w2, ?_⟩
    unfold bumpAll
    rw [hsv, hwv]
    exact hw2

/-- The invariant of reachable node states: the action list is the one
bound at construction, both dicts have exactly those keys, and the
strategy-mass accumulator is non-negative. -/
def NodeInv (acts : List Act) (n : Node) : Prop :=
  n.actions = acts ∧ n.regrets.map Prod.fst = acts ∧
  n.weighted_strategy_sum.map Prod.fst = acts ∧
  ∀ e ∈ n.weighted_strategy_sum, 0 ≤ e.2

/-- Every reachable node state satisfies the invariant. -/
theorem nodeReach_inv : ∀ {acts : List Act} {n : Node}, NodeReach acts n → NodeInv acts n := by
  intro acts n hr
  induction hr with
  | base =>
    refine ⟨rfl, by simp [mkNode, Function.comp_def], by simp [mkNode, Function.comp_def], ?_⟩
    intro e he
    simp only [mkNode] at he
    rcases List.mem_map.mp he with ⟨a, -, rfl⟩
    exact le_refl 0
  | addR a r hre hcall ih =>
    obtain ⟨ih1, ih2, ih3, ih4⟩ := ih
    unfold Node.add_regret at hcall
    split at hcall
    next => cases hcall
    next v hv =>
      cases hcall
      exact ⟨ih1, by rw [updateAdd_keys]; exact ih2, ih3, ih4⟩
  | curr p hp hre hcall ih =>
    obtain ⟨ih1, ih2, ih3, ih4⟩ := ih
    rename_i n0 n2 st0
    unfold Node.current_strategy at hcall
    by_cases hsum : (n0.regrets.map Prod.snd).sum = 0
    · rw [if_pos hsum] at hcall
      cases hnm : dictNormalize (n0.actions.map fun a => (a, (1 : ℚ))) with
      | none => simp only [hnm] at hcall; cases hcall
      | some st2 =>
        simp only [hnm] at hcall
        cases hbm : bumpAll n0.actions st2 n0.weighted_strategy_sum p with
        | none => simp only [hbm] at hcall; cases hcall
        | some wss2 =>
          simp only [hbm] at hcall
          cases hcall
          have hstnn := dictNormalize_nonneg hnm (by
            intro e he
            rcases List.mem_map.mp he with ⟨a2, -, rfl⟩
            exact zero_le_one)
          exact ⟨ih1, ih2, by rw [bumpAll_keys hbm]; exact ih3,
            bumpAll_nonneg hbm hstnn ih4 hp⟩
    · rw [if_neg hsum] at hcall
      cases hcl : clampStrategy n0.actions n0.regrets with
      | none => simp only [hcl] at hcall; cases hcall
      | some s0 =>
        simp only [hcl] at hcall
        cases hnm : dictNormalize s0 with
        | none => simp only [hnm] at hcall; cases hcall
        | some st2 =>
          simp only [hnm] at hcall
          cases hbm : bumpAll n0.actions st2 n0.weighted_strategy_sum p with
          | none => simp only [hbm] at hcall; cases hcall
          | some wss2 =>
            simp only [hbm] at hcall
            cases hcall
            have hstnn := dictNormalize_nonneg hnm (clampStrategy_nonneg hcl)
            exact ⟨ih1, ih2, by rw [bumpAll_keys hbm]; exact ih3,
              bumpAll_nonneg hbm hstnn ih4 hp⟩
  | cumul hre hcall ih =>
    obtain ⟨ih1, ih2, ih3, ih4⟩ := ih
    rename_i n0 n2 st0
    unfold Node.cumulative_strategy at hcall
    by_cases hsum : (n0.weighted_strategy_sum.map Prod.snd).sum = 0
    · rw [if_pos hsum] at hcall
      cases hnm : dictNormalize (n0.actions.map fun a => (a, (1 : ℚ))) with
      | none => simp only [hnm] at hcall; cases hcall
      | some st2 =>
        simp only [hnm] at hcall
        cases hcall
        exact ⟨ih1, ih2, ih3, ih4⟩
    · rw [if_neg hsum] at hcall
      cases hnm : dictNormalize n0.weighted_strategy_sum with
      | none => simp only [hnm] at hcall; cases hcall
      | some st2 =>
        simp only [hnm] at hcall
        cases hcall
        exact ⟨ih1, ih2, by rw [dictNormalize_keys hnm]; exact ih3,
          dictNormalize_nonneg hnm ih4⟩

theorem sum_ones : ∀ l : List Act,
    (((l.map fun a => ((a, (1 : ℚ)) : Act × ℚ)).map Prod.snd)).sum = (l.length : ℚ)
  | [] => by simp
  | a :: rest => by
    simp only [List.map_cons, List.sum_cons, sum_ones rest, List.length_cons]
    push_cast
    ring

/-- C9: `add_regret` with an action outside the node's fixed legal set
raises `KeyError` before any write: the call fails (`none`) and the regret
dict of every reachable node still has exactly the construction-time legal
actions as keys. -/
theorem c9_add_regret_fails_fast_on_unknown_action (acts : List Act) (n : Node)
    (a : Act) (r : ℚ) (hr : NodeReach acts n) (ha : a ∉ acts) :
    n.add_regret a r = none ∧ n.regrets.map Prod.fst = acts := by
  obtain ⟨-, hkeys, -, -⟩ := nodeReach_inv hr
  refine ⟨?_, hkeys⟩
  unfold Node.add_regret
  rw [alookup_eq_none (by rw [hkeys]; exact ha)]

/-- Witness for C9: a `limp` regret on a `(check, fold)` node. -/
theorem c9_add_regret_fails_fast_on_unknown_action_witness :
    (mkNode [Act.check, Act.fold]).add_regret .limp 1 = none ∧
    (mkNode [Act.check, Act.fold]).regrets.map Prod.fst = [Act.check, Act.fold] :=
  c9_add_regret_fails_fast_on_unknown_action [Act.check, Act.fold] _ .limp 1
    NodeReach.base (by decide)

/-- C10 counterexample: `cumulative_strategy` is NOT read-only.  On the
node produced by one `current_strategy` call with reach probability 2
(accumulator `(1, 1)`), calling `cumulative_strategy` rescales the
accumulator in place to `(1/2, 1/2)`: the `strategy` dict of its `else`
branch aliases `weighted_strategy_sum` and `normalize` divides it in
place. -/
theorem c10_cumulative_strategy_mutates :
    (mkNode [Act.check, Act.fold]).current_strategy 2
      = some ([(Act.check, 1/2), (Act.fold, 1/2)],
          ⟨[Act.check, Act.fold], [(Act.check, 0), (Act.fold, 0)],
            [(Act.check, 1), (Act.fold, 1)], 1⟩) ∧
    Node.cumulative_strategy
        ⟨[Act.check, Act.fold], [(Act.check, 0), (Act.fold, 0)],
          [(Act.check, 1), (Act.fold, 1)], 1⟩
      = some ([(Act.check, 1/2), (Act.fold, 1/2)],
          ⟨[Act.check, Act.fold], [(Act.check, 0), (Act.fold, 0)],
            [(Act.check, 1/2), (Act.fold, 1/2)], 1⟩) ∧
    ([(Act.check, (1 : ℚ)/2), (Act.fold, 1/2)]
      ≠ [(Act.check, (1 : ℚ)), (Act.fold, 1)]) := by
  refine ⟨?_, ?_, ?_⟩
  · norm_num [mkNode, Node.current_strategy, clampStrategy, alookup, dictNormalize,
      bumpAll, updateAdd, List.cons_ne_nil,
      show Act.check ≠ Act.fold from by decide, show Act.fold ≠ Act.check from by decide]
  · norm_num [Node.cumulative_strategy, dictNormalize, List.cons_ne_nil]
  · intro hc
    have := congrArg (fun l => (l.headD (Act.check, 0)).2) hc
    norm_num at this

/-- C10 (amended): `cumulative_strategy` leaves the regrets, the visit
counter and the action list unchanged; the strategy-mass accumulator is
unchanged when its total is zero, but when the total is nonzero the
accumulator is normalized in place (every entry divided by the total). -/
theorem c10_cumulative_strategy_frame (n : Node) (st : List (Act × ℚ)) (n2 : Node)
    (h : n.cumulative_strategy = some (st, n2)) :
    n2.actions = n.actions ∧ n2.regrets = n.regrets ∧ n2.t = n.t ∧
    ((n.weighted_strategy_sum.map Prod.snd).sum = 0 →
      n2.weighted_strategy_sum = n.weighted_strategy_sum) ∧
    ((n.weighted_strategy_sum.map Prod.snd).sum ≠ 0 →
      n2.weighted_strategy_sum = n.weighted_strategy_sum.map fun e =>
        (e.1, e.2 / (n.weighted_strategy_sum.map Prod.snd).sum)) := by
  unfold Node.cumulative_strategy at h
  by_cases hsum : (n.weighted_strategy_sum.map Prod.snd).sum = 0
  · rw [if_pos hsum] at h
    cases hnm : dictNormalize (n.actions.map fun a => (a, (1 : ℚ))) with
    | none => simp only [hnm] at h; cases h
    | some st2 =>
      simp only [hnm] at h
      cases h
      exact ⟨rfl, rfl, rfl, fun _ => rfl, fun hc => absurd hsum hc⟩
  · rw [if_neg hsum] at h
    rw [dictNormalize_of_ne_zero hsum] at h
    cases h
    exact ⟨rfl, rfl, rfl, fun hc => absurd hc hsum, fun _ => rfl⟩

/-- Witness for C10 (amended): on the node with accumulator `(1, 1)`,
`cumulative_strategy` leaves regrets and the counter alone but rescales the
accumulator to `(1/2, 1/2)`. -/
theorem c10_cumulative_strategy_frame_witness :
    (⟨[Act.check, Act.fold], [(Act.check, 0), (Act.fold, 0)],
        [(Act.check, 1/2), (Act.fold, 1/2)], 1⟩ : Node).actions
      = (⟨[Act.check, Act.fold], [(Act.check, 0), (Act.fold, 0)],
        [(Act.check, 1), (Act.fold, 1)], 1⟩ : Node).actions ∧
    (⟨[Act.check, Act.fold], [(Act.check, 0), (Act.fold, 0)],
        [(Act.check, 1/2), (Act.fold, 1/2)], 1⟩ : Node).regrets
      = (⟨[Act.check, Act.fold], [(Act.check, 0), (Act.fold, 0)],
        [(Act.check, 1), (Act.fold, 1)], 1⟩ : Node).regrets ∧
    (⟨[Act.check, Act.fold], [(Act.check, 0), (Act.fold, 0)],
        [(Act.check, 1/2), (Act.fold, 1/2)], 1⟩ : Node).t
      = (⟨[Act.check, Act.fold], [(Act.check, 0), (Act.fold, 0)],
        [(Act.check, 1), (Act.fold, 1)], 1⟩ : Node).t ∧
    (((⟨[Act.check, Act.fold], [(Act.check, 0), (Act.fold, 0)],
        [(Act.check, 1), (Act.fold, 1)], 1⟩ : Node).weighted_strategy_sum.map
          Prod.snd).sum = 0 →
      (⟨[Act.check, Act.fold], [(Act.check, 0), (Act.fold, 0)],
          [(Act.check, 1/2), (Act.fold, 1/2)], 1⟩ : Node).weighted_strategy_sum
        = (⟨[Act.check, Act.fold], [(Act.check, 0), (Act.fold, 0)],
          [(Act.check, 1), (Act.fold, 1)], 1⟩ : Node).weighted_strategy_sum) ∧
    (((⟨[Act.check, Act.fold], [(Act.check, 0), (Act.fold, 0)],
        [(Act.check, 1), (Act.fold, 1)], 1⟩ : Node).weighted_strategy_sum.map
          Prod.snd).sum ≠ 0 →
      (⟨[Act.check, Act.fold], [(Act.check, 0), (Act.fold, 0)],
          [(Act.check, 1/2), (Act.fold, 1/2)], 1⟩ : Node).weighted_strategy_sum
        = (⟨[Act.check, Act.fold], [(Act.check, 0), (Act.fold, 0)],
          [(Act.check, 1), (Act.fold, 1)], 1⟩ : Node).weighted_strategy_sum.map fun e =>
            (e.1, e.2 / ((⟨[Act.check, Act.fold], [(Act.check, 0), (Act.fold, 0)],
              [(Act.check, 1), (Act.fold, 1)], 1⟩ : Node).weighted_strategy_sum.map
                Prod.snd).sum)) :=
  c10_cumulative_strategy_frame _ [(Act.check, 1/2), (Act.fold, 1/2)] _
    (by norm_num [Node.cumulative_strategy, dictNormalize, List.cons_ne_nil])

/-- C2 counterexample: `current_strategy` CAN raise.  One perfectly legal
`add_regret` call (regret −1 on `fold`) drives the node into a state where
the total regret is nonzero but every clamped regret is zero, and
`normalize` then divides by zero: `current_strategy` raises
`ZeroDivisionError` instead of returning a distribution. -/
theorem c2_current_strategy_can_raise :
    (mkNode [Act.fold, Act.call]).add_regret .fold (-1)
      = some ⟨[Act.fold, Act.call], [(Act.fold, -1), (Act.call, 0)],
          [(Act.fold, 0), (Act.call, 0)], 0⟩ ∧
    Node.current_strategy
        ⟨[Act.fold, Act.call], [(Act.fold, -1), (Act.call, 0)],
          [(Act.fold, 0), (Act.call, 0)], 0⟩ 0
      = none := by
  constructor
  · norm_num [mkNode, Node.add_regret, alookup, updateAdd,
      show Act.fold ≠ Act.call from by decide, show Act.call ≠ Act.fold from by decide]
  · norm_num [Node.current_strategy, clampStrategy, alookup, dictNormalize,
      List.cons_ne_nil, show Act.fold ≠ Act.call from by decide,
      show Act.call ≠ Act.fold from by decide]

/-- C2 (amended): on every reachable node state (nonempty duplicate-free
action set, nonnegative reach probabilities), `cumulative_strategy` returns
a mapping over exactly the fixed action set with nonnegative values summing
to 1; `current_strategy` does the same whenever the total regret is zero or
some regret is positive — but (per the counterexample) raises when the
total regret is nonzero and no regret is positive. -/
theorem c2_strategies_are_distributions (acts : List Act) (n : Node)
    (hne : acts ≠ []) (hnd : acts.Nodup) (hr : NodeReach acts n) :
    (∃ st n2, n.cumulative_strategy = some (st, n2) ∧
      st.map Prod.fst = acts ∧ (∀ e ∈ st, 0 ≤ e.2) ∧ (st.map Prod.snd).sum = 1) ∧
    (∀ p : ℚ, ((n.regrets.map Prod.snd).sum = 0 ∨ ∃ e ∈ n.regrets, 0 < e.2) →
      ∃ st n2, n.current_strategy p = some (st, n2) ∧
        st.map Prod.fst = acts ∧ (∀ e ∈ st, 0 ≤ e.2) ∧ (st.map Prod.snd).sum = 1) := by
  obtain ⟨hact, hkr, hkw, hwnn⟩ := nodeReach_inv hr
  have hlen : ((acts.length : ℚ)) ≠ 0 := by
    have hpos := List.length_pos.mpr hne
    exact_mod_cast Nat.pos_iff_ne_zero.mp hpos
  have hones : (((acts.map fun a => ((a, (1 : ℚ)) : Act × ℚ)).map Prod.snd)).sum ≠ 0 := by
    rw [sum_ones]
    exact hlen
  have hnmU := dictNormalize_of_ne_zero hones
  have honesnn : ∀ e ∈ acts.map fun a => ((a, (1 : ℚ)) : Act × ℚ), 0 ≤ e.2 := by
    intro e he
    rcases List.mem_map.mp he with ⟨a2, -, rfl⟩
    exact zero_le_one
  have hUne : (acts.map fun a => ((a, (1 : ℚ)) : Act × ℚ)) ≠ [] := by
    intro hU
    rcases acts with - | ⟨a, rest⟩
    · exact hne rfl
    · cases hU
  have hUkeys :
      ((acts.map fun a => ((a, (1 : ℚ)) : Act × ℚ)).map fun e =>
        (e.1, e.2 / (((acts.map fun a => ((a, (1 : ℚ)) : Act × ℚ)).map Prod.snd)).sum)).map
          Prod.fst = acts := by
    rw [dictNormalize_keys hnmU, List.map_map]
    rw [show (Prod.fst ∘ fun a : Act => ((a, (1 : ℚ)) : Act × ℚ)) = id from rfl]
    exact List.map_id acts
  constructor
  · by_cases hsum : (n.weighted_strategy_sum.map Prod.snd).sum = 0
    · refine ⟨_, n, ?_, hUkeys, dictNormalize_nonneg hnmU honesnn,
        dictNormalize_sum_one hnmU hUne⟩
      unfold Node.cumulative_strategy
      rw [if_pos hsum, hact]
      simp only [hnmU]
    · have hnmW := dictNormalize_of_ne_zero hsum
      have hWne : n.weighted_strategy_sum ≠ [] := by
        intro hwe
        exact hne (by rw [← hkw, hwe]; rfl)
      refine ⟨_,
        { n with weighted_strategy_sum := n.weighted_strategy_sum.map fun e =>
            (e.1, e.2 / (n.weighted_strategy_sum.map Prod.snd).sum) },
        ?_, ?_, dictNormalize_nonneg hnmW hwnn,
        dictNormalize_sum_one hnmW hWne⟩
      · unfold Node.cumulative_strategy
        rw [if_neg hsum]
        simp only [hnmW]
      · rw [dictNormalize_keys hnmW]
        exact hkw
  · intro p hcase
    by_cases hsum : (n.regrets.map Prod.snd).sum = 0
    · obtain ⟨wss2, hbm⟩ := bumpAll_isSome acts
        ((acts.map fun a => ((a, (1 : ℚ)) : Act × ℚ)).map fun e =>
          (e.1, e.2 / (((acts.map fun a => ((a, (1 : ℚ)) : Act × ℚ)).map Prod.snd)).sum))
        n.weighted_strategy_sum p (by
          intro a2 ha2
          rw [hUkeys, hkw]
          exact ⟨ha2, ha2⟩)
      have heq : n.current_strategy p
          = some ((acts.map fun a => ((a, (1 : ℚ)) : Act × ℚ)).map fun e =>
              (e.1, e.2 / (((acts.map fun a => ((a, (1 : ℚ)) : Act × ℚ)).map Prod.snd)).sum),
            { n with weighted_strategy_sum := wss2,
                     t := if 0 < p then n.t + 1 else n.t }) := by
        unfold Node.current_strategy
        rw [if_pos hsum, hact]
        simp only [hnmU, hbm]
      exact ⟨_, _, heq, hUkeys, dictNormalize_nonneg hnmU honesnn,
        dictNormalize_sum_one hnmU hUne⟩
    · have hpos : ∃ e ∈ n.regrets, 0 < e.2 := hcase.resolve_left hsum
      have hndk : (n.regrets.map Prod.fst).Nodup := by rw [hkr]; exact hnd
      have hCS : clampStrategy acts n.regrets
          = some (n.regrets.map fun e => (e.1, if e.2 < 0 then 0 else e.2)) := by
        rw [← hkr]
        exact clampStrategy_self hndk
      have hCkeys : (n.regrets.map fun e =>
          (e.1, if e.2 < 0 then (0 : ℚ) else e.2)).map Prod.fst = acts := by
        rw [List.map_map]
        rw [show (Prod.fst ∘ fun e : Act × ℚ =>
          (e.1, if e.2 < 0 then (0 : ℚ) else e.2)) = Prod.fst from rfl]
        exact hkr
      have hCnn2 : ∀ e ∈ (n.regrets.map fun e =>
          (e.1, if e.2 < 0 then (0 : ℚ) else e.2)), 0 ≤ e.2 := by
        intro e he
        rcases List.mem_map.mp he with ⟨e2, he2, rfl⟩
        dsimp only
        split
        next => exact le_refl 0
        next hlt => exact not_lt.mp hlt
      have hCnn : ∀ x ∈ (n.regrets.map fun e =>
          (e.1, if e.2 < 0 then (0 : ℚ) else e.2)).map Prod.snd, 0 ≤ x := by
        intro x hx
        rcases List.mem_map.mp hx with ⟨e, he, rfl⟩
        exact hCnn2 e he
      obtain ⟨e0, he0, he0pos⟩ := hpos
      have hmemC : e0.2 ∈ (n.regrets.map fun e =>
          (e.1, if e.2 < 0 then (0 : ℚ) else e.2)).map Prod.snd := by
        have hm1 : (e0.1, if e0.2 < 0 then (0 : ℚ) else e0.2)
            ∈ n.regrets.map fun e => (e.1, if e.2 < 0 then (0 : ℚ) else e.2) :=
          List.mem_map.mpr ⟨e0, he0, rfl⟩
        have hm2 := List.mem_map_of_mem Prod.snd hm1
        rwa [show (if e0.2 < 0 then (0 : ℚ) else e0.2) = e0.2 from
          if_neg (not_lt.mpr (le_of_lt he0pos))] at hm2
      have hT : ((n.regrets.map fun e =>
          (e.1, if e.2 < 0 then (0 : ℚ) else e.2)).map Prod.snd).sum ≠ 0 :=
        ne_of_gt (lt_of_lt_of_le he0pos (List.single_le_sum hCnn _ hmemC))
      have hnmC := dictNormalize_of_ne_zero hT
      have hCne : (n.regrets.map fun e =>
          (e.1, if e.2 < 0 then (0 : ℚ) else e.2)) ≠ [] := by
        intro hCe
        exact hne (by rw [← hCkeys, hCe]; rfl)
      obtain ⟨wss2, hbm⟩ := bumpAll_isSome acts
        ((n.regrets.map fun e => (e.1, if e.2 < 0 then (0 : ℚ) else e.2)).map fun e =>
          (e.1, e.2 / ((n.regrets.map fun e =>
            (e.1, if e.2 < 0 then (0 : ℚ) else e.2)).map Prod.snd).sum))
        n.weighted_strategy_sum p (by
          intro a2 ha2
          rw [dictNormalize_keys hnmC, hCkeys, hkw]
          exact ⟨ha2, ha2⟩)
      have heq : n.current_strategy p
          = some ((n.regrets.map fun e => (e.1, if e.2 < 0 then (0 : ℚ) else e.2)).map fun e =>
              (e.1, e.2 / ((n.regrets.map fun e =>
                (e.1, if e.2 < 0 then (0 : ℚ) else e.2)).map Prod.snd).sum),
            { n with weighted_strategy_sum := wss2,
                     t := if 0 < p then n.t + 1 else n.t }) := by
        unfold Node.current_strategy
        rw [if_neg hsum, hact]
        simp only [hCS, hnmC, hbm]
      refine ⟨_, _, heq, ?_, dictNormalize_nonneg hnmC hCnn2,
        dictNormalize_sum_one hnmC hCne⟩
      rw [dictNormalize_keys hnmC]
      exact hCkeys

/-- Witness for C2 (amended) at a freshly constructed `(fold, call)`
node. -/
theorem c2_strategies_are_distributions_witness :
    (∃ st n2, (mkNode [Act.fold, Act.call]).cumulative_strategy = some (st, n2) ∧
      st.map Prod.fst = [Act.fold, Act.call] ∧ (∀ e ∈ st, 0 ≤ e.2) ∧
      (st.map Prod.snd).sum = 1) ∧
    (∀ p : ℚ, (((mkNode [Act.fold, Act.call]).regrets.map Prod.snd).sum = 0 ∨
        ∃ e ∈ (mkNode [Act.fold, Act.call]).regrets, 0 < e.2) →
      ∃ st n2, (mkNode [Act.fold, Act.call]).current_strategy p = some (st, n2) ∧
        st.map Prod.fst = [Act.fold, Act.call] ∧ (∀ e ∈ st, 0 ≤ e.2) ∧
        (st.map Prod.snd).sum = 1) :=
  c2_strategies_are_distributions [Act.fold, Act.call] _ (by decide) (by decide)
    NodeReach.base

/-- C3 counterexample: when every accumulated regret is negative (total
nonzero, every clamped regret zero), `current_strategy` does NOT fall back
to uniform — `normalize` divides by zero and the call raises. -/
theorem c3_no_uniform_fallback_on_all_negative :
    Node.current_strategy
        ⟨[Act.check, Act.fold], [(Act.check, -2), (Act.fold, -1)],
          [(Act.check, 0), (Act.fold, 0)], 0⟩ 0
      = none := by
  norm_num [Node.current_strategy, clampStrategy, alookup, dictNormalize,
    List.cons_ne_nil, show Act.check ≠ Act.fold from by decide,
    show Act.fold ≠ Act.check from by decide]

/-- C3 (amended): `current_strategy` implements regret matching — the
uniform distribution when the total regret is exactly zero; clamped regrets
`max(regret, 0)` normalized by their total when the total regret is nonzero
and some regret is positive; and a `ZeroDivisionError` (not a uniform
fallback) when the total regret is nonzero and no regret is positive. -/
theorem c3_current_strategy_regret_matching (acts : List Act) (n : Node) (p : ℚ)
    (hne : acts ≠ []) (hnd : acts.Nodup) (hact : n.actions = acts)
    (hkr : n.regrets.map Prod.fst = acts)
    (hkw : n.weighted_strategy_sum.map Prod.fst = acts) :
    ((n.regrets.map Prod.snd).sum = 0 →
      ∃ n2, n.current_strategy p
        = some (acts.map fun a => (a, 1 / (acts.length : ℚ)), n2)) ∧
    ((n.regrets.map Prod.snd).sum ≠ 0 → (∃ e ∈ n.regrets, 0 < e.2) →
      ∃ n2, n.current_strategy p
        = some (n.regrets.map fun e => (e.1, (if e.2 < 0 then 0 else e.2)
            / ((n.regrets.map fun e2 => if e2.2 < 0 then (0 : ℚ) else e2.2).sum)), n2)) ∧
    ((n.regrets.map Prod.snd).sum ≠ 0 → (∀ e ∈ n.regrets, e.2 ≤ 0) →
      n.current_strategy p = none) := by
  have hlen : ((acts.length : ℚ)) ≠ 0 := by
    have hpos := List.length_pos.mpr hne
    exact_mod_cast Nat.pos_iff_ne_zero.mp hpos
  have hones : (((acts.map fun a => ((a, (1 : ℚ)) : Act × ℚ)).map Prod.snd)).sum ≠ 0 := by
    rw [sum_ones]
    exact hlen
  have hnmU := dictNormalize_of_ne_zero hones
  have hUkeys :
      ((acts.map fun a => ((a, (1 : ℚ)) : Act × ℚ)).map fun e =>
        (e.1, e.2 / (((acts.map fun a => ((a, (1 : ℚ)) : Act × ℚ)).map Prod.snd)).sum)).map
          Prod.fst = acts := by
    rw [dictNormalize_keys hnmU, List.map_map]
    rw [show (Prod.fst ∘ fun a : Act => ((a, (1 : ℚ)) : Act × ℚ)) = id from rfl]
    exact List.map_id acts
  refine ⟨?_, ?_, ?_⟩
  · intro hsum
    obtain ⟨wss2, hbm⟩ := bumpAll_isSome acts
      ((acts.map fun a => ((a, (1 : ℚ)) : Act × ℚ)).map fun e =>
        (e.1, e.2 / (((acts.map fun a => ((a, (1 : ℚ)) : Act × ℚ)).map Prod.snd)).sum))
      n.weighted_strategy_sum p (by
        intro a2 ha2
        rw [hUkeys, hkw]
        exact ⟨ha2, ha2⟩)
    have heq : n.current_strategy p
        = some ((acts.map fun a => ((a, (1 : ℚ)) : Act × ℚ)).map fun e =>
            (e.1, e.2 / (((acts.map fun a => ((a, (1 : ℚ)) : Act × ℚ)).map Prod.snd)).sum),
          { n with weighted_strategy_sum := wss2,
                   t := if 0 < p then n.t + 1 else n.t }) := by
      unfold Node.current_strategy
      rw [if_pos hsum, hact]
      simp only [hnmU, hbm]
    have hstU : ((acts.map fun a => ((a, (1 : ℚ)) : Act × ℚ)).map fun e =>
        (e.1, e.2 / (((acts.map fun a => ((a, (1 : ℚ)) : Act × ℚ)).map Prod.snd)).sum))
        = acts.map fun a => (a, 1 / (acts.length : ℚ)) := by
      rw [sum_ones, List.map_map]
      rfl
    exact ⟨_, by rw [heq, hstU]⟩
  · intro hsum hpos
    have hndk : (n.regrets.map Prod.fst).Nodup := by rw [hkr]; exact hnd
    have hCS : clampStrategy acts n.regrets
        = some (n.regrets.map fun e => (e.1, if e.2 < 0 then 0 else e.2)) := by
      rw [← hkr]
      exact clampStrategy_self hndk
    have hCkeys : (n.regrets.map fun e =>
        (e.1, if e.2 < 0 then (0 : ℚ) else e.2)).map Prod.fst = acts := by
      rw [List.map_map]
      rw [show (Prod.fst ∘ fun e : Act × ℚ =>
        (e.1, if e.2 < 0 then (0 : ℚ) else e.2)) = Prod.fst from rfl]
      exact hkr
    have hCnn : ∀ x ∈ (n.regrets.map fun e =>
        (e.1, if e.2 < 0 then (0 : ℚ) else e.2)).map Prod.snd, 0 ≤ x := by
      intro x hx
      rcases List.mem_map.mp hx with ⟨e, he, rfl⟩
      rcases List.mem_map.mp he with ⟨e2, he2, rfl⟩
      dsimp only
      split
      next => exact le_refl 0
      next hlt => exact not_lt.mp hlt
    obtain ⟨e0, he0, he0pos⟩ := hpos
    have hm1 : (e0.1, if e0.2 < 0 then (0 : ℚ) else e0.2)
        ∈ n.regrets.map fun e => (e.1, if e.2 < 0 then (0 : ℚ) else e.2) :=
      List.mem_map.mpr ⟨e0, he0, rfl⟩
    have hm2 := List.mem_map_of_mem Prod.snd hm1
    rw [show Prod.snd (e0.1, if e0.2 < 0 then (0 : ℚ) else e0.2)
      = (if e0.2 < 0 then (0 : ℚ) else e0.2) from rfl,
      if_neg (not_lt.mpr (le_of_lt he0pos))] at hm2
    have hT : ((n.regrets.map fun e =>
        (e.1, if e.2 < 0 then (0 : ℚ) else e.2)).map Prod.snd).sum ≠ 0 :=
      ne_of_gt (lt_of_lt_of_le he0pos (List.single_le_sum hCnn _ hm2))
    have hnmC := dictNormalize_of_ne_zero hT
    obtain ⟨wss2, hbm⟩ := bumpAll_isSome acts
      ((n.regrets.map fun e => (e.1, if e.2 < 0 then (0 : ℚ) else e.2)).map fun e =>
        (e.1, e.2 / ((n.regrets.map fun e =>
          (e.1, if e.2 < 0 then (0 : ℚ) else e.2)).map Prod.snd).sum))
      n.weighted_strategy_sum p (by
        intro a2 ha2
        rw [dictNormalize_keys hnmC, hCkeys, hkw]
        exact ⟨ha2, ha2⟩)
    have heq : n.current_strategy p
        = some ((n.regrets.map fun e => (e.1, if e.2 < 0 then (0 : ℚ) else e.2)).map fun e =>
            (e.1, e.2 / ((n.regrets.map fun e =>
              (e.1, if e.2 < 0 then (0 : ℚ) else e.2)).map Prod.snd).sum),
          { n with weighted_strategy_sum := wss2,
                   t := if 0 < p then n.t + 1 else n.t }) := by
      unfold Node.current_strategy
      rw [if_neg hsum, hact]
      simp only [hCS, hnmC, hbm]
    have hstC : ((n.regrets.map fun e => (e.1, if e.2 < 0 then (0 : ℚ) else e.2)).map fun e =>
        (e.1, e.2 / ((n.regrets.map fun e =>
          (e.1, if e.2 < 0 then (0 : ℚ) else e.2)).map Prod.snd).sum))
        = n.regrets.map fun e => (e.1, (if e.2 < 0 then 0 else e.2)
            / ((n.regrets.map fun e2 => if e2.2 < 0 then (0 : ℚ) else e2.2).sum)) := by
      simp only [List.map_map]
      rfl
    exact ⟨_, by rw [heq, hstC]⟩
  · intro hsum hall
    have hndk : (n.regrets.map Prod.fst).Nodup := by rw [hkr]; exact hnd
    have hCS : clampStrategy acts n.regrets
        = some (n.regrets.map fun e => (e.1, if e.2 < 0 then 0 else e.2)) := by
      rw [← hkr]
      exact clampStrategy_self hndk
    have hCkeys : (n.regrets.map fun e =>
        (e.1, if e.2 < 0 then (0 : ℚ) else e.2)).map Prod.fst = acts := by
      rw [List.map_map]
      rw [show (Prod.fst ∘ fun e : Act × ℚ =>
        (e.1, if e.2 < 0 then (0 : ℚ) else e.2)) = Prod.fst from rfl]
      exact hkr
    have hCzero : ((n.regrets.map fun e =>
        (e.1, if e.2 < 0 then (0 : ℚ) else e.2)).map Prod.snd).sum = 0 := by
      apply List.sum_eq_zero
      intro x hx
      rcases List.mem_map.mp hx with ⟨e, he, rfl⟩
      rcases List.mem_map.mp he with ⟨e2, he2, rfl⟩
      dsimp only
      split
      next => rfl
      next hlt => exact le_antisymm (hall e2 he2) (not_lt.mp hlt)
    have hCne : (n.regrets.map fun e =>
        (e.1, if e.2 < 0 then (0 : ℚ) else e.2)) ≠ [] := by
      intro hCe
      exact hne (by rw [← hCkeys, hCe]; rfl)
    have hnone : dictNormalize (n.regrets.map fun e =>
        (e.1, if e.2 < 0 then (0 : ℚ) else e.2)) = none := by
      unfold dictNormalize
      rw [if_neg hCne, if_pos hCzero]
    unfold Node.current_strategy
    rw [if_neg hsum, hact]
    simp only [hCS, hnone]

/-- Witness for C3 (amended) at the node with regrets `(3, −1)`: nonzero
total with a positive regret, so the clamp-and-normalize branch applies. -/
theorem c3_current_strategy_regret_matching_witness :
    ∃ n2, (⟨[Act.fold, Act.call], [(Act.fold, 3), (Act.call, -1)],
        [(Act.fold, 0), (Act.call, 0)], 0⟩ : Node).current_strategy 1
      = some ((⟨[Act.fold, Act.call], [(Act.fold, 3), (Act.call, -1)],
          [(Act.fold, 0), (Act.call, 0)], 0⟩ : Node).regrets.map fun e =>
            (e.1, (if e.2 < 0 then 0 else e.2)
              / (((⟨[Act.fold, Act.call], [(Act.fold, 3), (Act.call, -1)],
                [(Act.fold, 0), (Act.call, 0)], 0⟩ : Node).regrets.map fun e2 =>
                  if e2.2 < 0 then (0 : ℚ) else e2.2).sum)), n2) :=
  (c3_current_strategy_regret_matching [Act.fold, Act.call]
      ⟨[Act.fold, Act.call], [(Act.fold, 3), (Act.call, -1)],
        [(Act.fold, 0), (Act.call, 0)], 0⟩ 1 (by decide) (by decide)
      rfl rfl rfl).2.1
    (by norm_num)
    ⟨(Act.fold, 3), List.mem_cons_self _ _, by norm_num⟩
